import Mathlib

/-!
Verification of the Tesser live execution kernel against its specification.

The Rust sources are shallowly embedded: exact decimal arithmetic
(`rust_decimal::Decimal`) is modelled by `ℚ`, timestamps (`DateTime<Utc>`)
by `ℤ`, UUIDs by `String`, and the `u64` ledger sequence counter by `ℕ`
with explicit reduction modulo `2 ^ 64` where the machine integer wraps.
Types from the `tesser-core` and `tesser-portfolio` crates are not part of
the provided sources and are modelled from the specification's data model;
every function whose source is available (conditional order manager, ledger
journal and sequencer, trailing stop algorithm, state differ, reconciliation
handler dispatch, rate limiter dispatch) is translated directly from it.
-/

set_option maxHeartbeats 1000000

/-- Modelled from the spec: order/fill side (`tesser-core` is not in the
provided sources). `as_i8` is the side sign: `+1` for Buy, `-1` for Sell. -/
inductive Side where
  | Buy
  | Sell
deriving DecidableEq, Repr

def Side.as_i8 : Side → Int
  | .Buy => 1
  | .Sell => -1

/-- Modelled from the spec: order type (market / limit / stop variants). -/
inductive OrderType where
  | Market
  | Limit
  | StopMarket
  | StopLimit
deriving DecidableEq, Repr

/-- Modelled from the spec: time-in-force values. -/
inductive TimeInForce where
  | GoodTilCanceled
  | ImmediateOrCancel
  | FillOrKill
deriving DecidableEq, Repr

/-- Modelled from the spec: order lifecycle status
`PendingNew → Accepted → PartiallyFilled* → Filled | Canceled | Rejected`. -/
inductive OrderStatus where
  | PendingNew
  | Accepted
  | PartiallyFilled
  | Filled
  | Canceled
  | Rejected
deriving DecidableEq, Repr

/-- Modelled from the spec: the order request payload
(symbol, side, type, qty, price?, trigger_price?, time-in-force,
client_order_id?, take_profit?, stop_loss?, display_qty?). -/
structure OrderRequest where
  symbol : String
  side : Side
  order_type : OrderType
  quantity : ℚ
  price : Option ℚ
  trigger_price : Option ℚ
  time_in_force : Option TimeInForce
  client_order_id : Option String
  take_profit : Option ℚ
  stop_loss : Option ℚ
  display_quantity : Option ℚ
deriving DecidableEq, Repr

/-- Modelled from the spec: a venue order (id, request, status, fill totals,
timestamps). -/
structure Order where
  id : String
  request : OrderRequest
  status : OrderStatus
  filled_quantity : ℚ
  avg_fill_price : Option ℚ
  created_at : ℤ
  updated_at : ℤ
deriving DecidableEq, Repr

/-- Modelled from the spec: an OHLCV candle. -/
structure Candle where
  symbol : String
  interval : String
  open_ : ℚ
  high : ℚ
  low : ℚ
  close : ℚ
  volume : ℚ
  timestamp : ℤ
deriving DecidableEq, Repr

/-! ## Conditional order manager (`connectors/tesser-paper/src/conditional.rs`) -/

/-- Internal classification for conditional orders (used for OCO resolution). -/
inductive TriggerKind where
  | Standalone
  | StopLoss
  | TakeProfit
deriving DecidableEq, Repr

def TriggerKind.priority : TriggerKind → ℕ
  | .StopLoss => 0
  | .TakeProfit => 1
  | .Standalone => 2

/-- Triggered order metadata returned by the manager. -/
structure TriggeredOrder where
  order : Order
  fill_price : ℚ
  timestamp : ℤ
  kind : TriggerKind
  group : Option String
deriving DecidableEq, Repr

structure PendingConditional where
  order : Order
  kind : TriggerKind
  group : Option String
deriving DecidableEq, Repr

/-- Embeds `str::strip_suffix`. -/
def stripSuffix (s suf : String) : Option String :=
  if s.endsWith suf then some (s.dropRight suf.length) else none

/-- Embeds `parse_group`: classify an order by its `client_order_id` suffix
(`-sl` → StopLoss, `-tp` → TakeProfit, anything else → Standalone). -/
def parse_group (order : Order) : Option String × TriggerKind :=
  match order.request.client_order_id with
  | some cid =>
    match stripSuffix cid "-sl" with
    | some base => (some base, TriggerKind.StopLoss)
    | none =>
      match stripSuffix cid "-tp" with
      | some base => (some base, TriggerKind.TakeProfit)
      | none => (none, TriggerKind.Standalone)
  | none => (none, TriggerKind.Standalone)

/-- The manager's pending queue; `ConditionalOrderManager::push`. -/
def ConditionalOrderManager.push (orders : List PendingConditional) (order : Order) :
    List PendingConditional :=
  orders ++ [{ order := order, kind := (parse_group order).2, group := (parse_group order).1 }]

/-- The orders of the single `drain` pass that the evaluator triggers,
carrying the evaluator-provided fill price and timestamp. -/
def triggeredOf (orders : List PendingConditional)
    (ev : PendingConditional → Option (ℚ × ℤ)) : List TriggeredOrder :=
  orders.filterMap fun p =>
    (ev p).map fun pr =>
      { order := p.order, fill_price := pr.1, timestamp := pr.2, kind := p.kind,
        group := p.group }

/-- The orders the evaluator does not trigger (the `survivors` vector). -/
def survivorsOf (orders : List PendingConditional)
    (ev : PendingConditional → Option (ℚ × ℤ)) : List PendingConditional :=
  orders.filter fun p => (ev p).isNone

/-- The OCO group keys present among the triggered events.  The Rust code
collects them in a `HashMap` whose iteration order is unspecified; the
embedding fixes an arbitrary duplicate-free enumeration of the same set. -/
def groupKeysOf (events : List TriggeredOrder) : List String :=
  (events.filterMap (·.group)).dedup

/-- The triggered events belonging to group `g`. -/
def groupEvents (events : List TriggeredOrder) (g : String) : List TriggeredOrder :=
  events.filter fun e => e.group == some g

/-- Fold computing the first event of minimal priority, equivalent to taking
the head after the stable `sort_by_key(priority)` in the source. -/
def pickBestAux (best : TriggeredOrder) : List TriggeredOrder → TriggeredOrder
  | [] => best
  | x :: rest => pickBestAux (if x.kind.priority < best.kind.priority then x else best) rest

def pickBest : List TriggeredOrder → Option TriggeredOrder
  | [] => none
  | e :: rest => some (pickBestAux e rest)

/-- The `resolved` output of one evaluation pass: ungrouped events plus, per
triggered group, the single winner of minimal priority. -/
def resolvedOf (events : List TriggeredOrder) : List TriggeredOrder :=
  events.filter (fun e => e.group.isNone) ++
    (groupKeysOf events).filterMap fun g => pickBest (groupEvents events g)

/-- Embeds `ConditionalOrderManager::evaluate`: returns the resolved triggered
events and the new pending queue (survivors whose group was not resolved). -/
def ConditionalOrderManager.evaluate (orders : List PendingConditional)
    (ev : PendingConditional → Option (ℚ × ℤ)) :
    List TriggeredOrder × List PendingConditional :=
  let events := triggeredOf orders ev
  let dropGroups := groupKeysOf events
  (resolvedOf events,
    (survivorsOf orders ev).filter fun p =>
      match p.group with
      | some g => !(dropGroups.contains g)
      | none => true)

/-- The evaluator of `trigger_with_candle`: a pending order is touched iff
`side == Buy ∧ candle.high ≥ trigger` or `side == Sell ∧ candle.low ≤ trigger`;
the fill price is the trigger, the timestamp the candle's. -/
def candleEvaluator (candle : Candle) (p : PendingConditional) : Option (ℚ × ℤ) :=
  match p.order.request.trigger_price with
  | none => none
  | some trigger =>
    let touched : Bool :=
      match p.order.request.side with
      | Side.Buy => decide (trigger ≤ candle.high)
      | Side.Sell => decide (candle.low ≤ trigger)
    if touched then some (trigger, candle.timestamp) else none

/-- Embeds `ConditionalOrderManager::trigger_with_candle`. -/
def ConditionalOrderManager.trigger_with_candle (orders : List PendingConditional)
    (candle : Candle) : List TriggeredOrder × List PendingConditional :=
  ConditionalOrderManager.evaluate orders (candleEvaluator candle)

/-- The evaluator of `trigger_with_price`: touched iff the last trade price
crossed the trigger; the fill price is the last price. -/
def priceEvaluator (last_price : ℚ) (timestamp : ℤ) (p : PendingConditional) :
    Option (ℚ × ℤ) :=
  match p.order.request.trigger_price with
  | none => none
  | some trigger =>
    let touched : Bool :=
      match p.order.request.side with
      | Side.Buy => decide (trigger ≤ last_price)
      | Side.Sell => decide (last_price ≤ trigger)
    if touched then some (last_price, timestamp) else none

/-- Embeds `ConditionalOrderManager::trigger_with_price`. -/
def ConditionalOrderManager.trigger_with_price (orders : List PendingConditional)
    (last_price : ℚ) (timestamp : ℤ) : List TriggeredOrder × List PendingConditional :=
  ConditionalOrderManager.evaluate orders (priceEvaluator last_price timestamp)

/-! ## Ledger journal (`tesser-ledger/src/journal.rs`, `entry.rs`) -/

/-- Modelled from the spec: an asset identifier scoped to an exchange
(`AssetId` of `tesser-core`; `build_entry` reads its `exchange` field). -/
structure AssetId where
  exchange : String
  code : String
deriving DecidableEq, Repr

/-- Modelled from the spec: instrument kind, which determines the
settlement currency. -/
inductive InstrumentKind where
  | Spot
  | LinearPerpetual
  | InversePerpetual
deriving DecidableEq, Repr

/-- Modelled from the spec: the instrument fields read by the journal. -/
structure Instrument where
  symbol : String
  base : AssetId
  quote : AssetId
  settlement_currency : AssetId
  kind : InstrumentKind
deriving DecidableEq, Repr

/-- Modelled from the spec: a trade fill
(order_id, symbol, side, fill_price, fill_quantity, fee?, fee_asset?,
timestamp). -/
structure Fill where
  order_id : String
  symbol : String
  side : Side
  fill_price : ℚ
  fill_quantity : ℚ
  fee : Option ℚ
  fee_asset : Option AssetId
  timestamp : ℤ
deriving DecidableEq, Repr

/-- Enumerates the supported ledger line item categories. -/
inductive LedgerType where
  | TradeRealizedPnl
  | Fee
  | Funding
  | TransferIn
  | TransferOut
  | Adjustment
deriving DecidableEq, Repr

/-- The `meta` JSON object attached by `build_entry`
(`{"symbol": …, "component": …}`). -/
structure EntryMeta where
  symbol : String
  component : String
deriving DecidableEq, Repr

/-- Canonical ledger record describing a single balance delta.  The random
`Uuid::new_v4` entry id is modelled by a fixed placeholder string. -/
structure LedgerEntry where
  id : String
  sequence : ℕ
  timestamp : ℤ
  exchange : String
  asset : AssetId
  amount : ℚ
  entry_type : LedgerType
  reference_id : String
  meta : Option EntryMeta
deriving DecidableEq, Repr

/-- Embeds `build_entry`: `LedgerEntry::new` (zero sequence, exchange taken from the
asset, reference id from the fill's order id) followed by the meta and
timestamp assignments of `journal.rs`. -/
def build_entry (asset : AssetId) (amount : ℚ) (fill : Fill) (entry_type : LedgerType)
    (component : Option String) : LedgerEntry :=
  { id := "uuid", sequence := 0, timestamp := fill.timestamp,
    exchange := asset.exchange, asset := asset, amount := amount,
    entry_type := entry_type, reference_id := fill.order_id,
    meta := component.map fun kind => { symbol := fill.symbol, component := kind } }

/-- Embeds `spot_entries`: base delta `+qty` (Buy) / `-qty` (Sell), quote delta
`-notional` / `+notional`, each emitted only when non-zero. -/
def spot_entries (fill : Fill) (instrument : Instrument) : List LedgerEntry :=
  let qty := fill.fill_quantity
  let notional := fill.fill_price * qty
  let base_delta : ℚ :=
    match fill.side with
    | Side.Buy => qty
    | Side.Sell => -qty
  let quote_delta : ℚ :=
    match fill.side with
    | Side.Buy => -notional
    | Side.Sell => notional
  (if base_delta ≠ 0 then
    [build_entry instrument.base base_delta fill LedgerType.Adjustment (some "base")]
  else []) ++
  (if quote_delta ≠ 0 then
    [build_entry instrument.quote quote_delta fill LedgerType.Adjustment (some "quote")]
  else [])

/-- Embeds `derivative_entries`: settlement delta `-(notional × sideSign)`, emitted
only when non-zero. -/
def derivative_entries (fill : Fill) (instrument : Instrument) : List LedgerEntry :=
  let notional := fill.fill_price * fill.fill_quantity
  let direction : ℚ := (fill.side.as_i8 : ℚ)
  let settlement_delta := -(notional * direction)
  if settlement_delta ≠ 0 then
    [build_entry instrument.settlement_currency settlement_delta fill LedgerType.Adjustment
      (some "settlement")]
  else []

/-- The default fee asset of `entries_from_fill`:
`fill.fee_asset.unwrap_or(quote | settlement_currency)`. -/
def resolvedFeeAsset (fill : Fill) (instrument : Instrument) : AssetId :=
  fill.fee_asset.getD
    (match instrument.kind with
     | InstrumentKind.Spot => instrument.quote
     | _ => instrument.settlement_currency)

/-- Embeds `entries_from_fill`: kind-specific adjustments, then the realized-pnl
entry when non-zero, then the negated fee entry when a non-zero fee is
present. -/
def entries_from_fill (fill : Fill) (instrument : Instrument) (realized_pnl : ℚ) :
    List LedgerEntry :=
  (match instrument.kind with
   | InstrumentKind.Spot => spot_entries fill instrument
   | InstrumentKind.LinearPerpetual => derivative_entries fill instrument
   | InstrumentKind.InversePerpetual => derivative_entries fill instrument) ++
  (if realized_pnl ≠ 0 then
    [build_entry instrument.settlement_currency realized_pnl fill LedgerType.TradeRealizedPnl
      (some "realized_pnl")]
  else []) ++
  (match fill.fee with
   | some fee =>
     if fee ≠ 0 then
       [build_entry (resolvedFeeAsset fill instrument) (-fee) fill LedgerType.Fee (some "fee")]
     else []
   | none => [])

/-! ## Ledger sequencer (`tesser-ledger/src/sequencer.rs`) -/

/-- Embeds `LedgerSequencer::next` on the `AtomicU64` counter:
`fetch_add(1)` wraps the counter to `(c + 1) % 2^64` and returns the old
value, to which the release-mode wrapping `+ 1` is applied; the call returns
`(c + 1) % 2^64` and leaves the counter at the same value.  The result pair
is (returned sequence, new counter). -/
def LedgerSequencer.next (counter : ℕ) : ℕ × ℕ :=
  let v := (counter + 1) % 2 ^ 64
  (v, v)

/-- The values returned by `n` successive `next()` calls on a sequencer
created from `last_sequence = s` (`LedgerSequencer::new(s)`). -/
def LedgerSequencer.nextValues : ℕ → ℕ → List ℕ
  | _, 0 => []
  | s, n + 1 =>
    let r := LedgerSequencer.next s
    r.1 :: LedgerSequencer.nextValues r.2 n

/-! ## Trailing stop algorithm (`tesser-execution/src/algorithm/trailing_stop.rs`) -/

/-- Modelled from the spec: the signal fields the trailing stop reads
(symbol and the side derived from the signal kind). -/
structure Signal where
  symbol : String
  side : Side
deriving DecidableEq, Repr

inductive AlgoStatus where
  | Working
  | Completed
  | Cancelled
  | Failed (msg : String)
deriving DecidableEq, Repr

/-- Embeds `TrailingStopState` (the serialized state of the algorithm); the `Uuid`
id is modelled by a string. -/
structure TrailingStopState where
  id : String
  parent_signal : Signal
  status : String
  total_quantity : ℚ
  filled_quantity : ℚ
  activation_price : ℚ
  callback_rate : ℚ
  highest_market_price : ℚ
  activated : Bool
  triggered : Bool
deriving DecidableEq, Repr

/-- Embeds `TrailingStopAlgorithm::new`: validates the parameters and builds the
initial state (fails on non-positive quantity or activation price, a
non-Sell signal side, or a callback rate outside `(0, 1)`). -/
def TrailingStopAlgorithm.new (id : String) (signal : Signal) (total_quantity : ℚ)
    (activation_price : ℚ) (callback_rate : ℚ) : Option TrailingStopState :=
  if total_quantity ≤ 0 then none
  else if signal.side ≠ Side.Sell then none
  else if activation_price ≤ 0 then none
  else if callback_rate ≤ 0 ∨ 1 ≤ callback_rate then none
  else
    some { id := id, parent_signal := signal, status := "Working",
           total_quantity := total_quantity, filled_quantity := 0,
           activation_price := activation_price, callback_rate := callback_rate,
           highest_market_price := activation_price, activated := false,
           triggered := false }

def TrailingStopAlgorithm.status (s : TrailingStopState) : AlgoStatus :=
  match s.status with
  | "Working" => AlgoStatus.Working
  | "Completed" => AlgoStatus.Completed
  | "Cancelled" => AlgoStatus.Cancelled
  | other => AlgoStatus.Failed other

/-- Embeds `remaining = max(total_quantity - filled_quantity, 0)`. -/
def TrailingStopAlgorithm.remaining (s : TrailingStopState) : ℚ :=
  max (s.total_quantity - s.filled_quantity) 0

def TrailingStopAlgorithm.try_activate (s : TrailingStopState) (price : ℚ) :
    TrailingStopState :=
  if ¬s.activated ∧ s.activation_price ≤ price then
    { s with activated := true, highest_market_price := price }
  else s

def TrailingStopAlgorithm.update_trail (s : TrailingStopState) (price : ℚ) :
    TrailingStopState :=
  if s.highest_market_price < price then { s with highest_market_price := price } else s

/-- A child order request emitted by an algorithm; the trailing stop only
ever emits `Place` actions (`Amend` carries the update request's order id). -/
inductive ChildOrderAction where
  | Place (request : OrderRequest)
  | Amend (order_id : String)
deriving DecidableEq, Repr

structure ChildOrderRequest where
  parent_algo_id : String
  action : ChildOrderAction
deriving DecidableEq, Repr

/-- Embeds `TrailingStopAlgorithm::build_child`: a market order on the parent
signal's symbol and side with client id `trailing-<id>`. -/
def TrailingStopAlgorithm.build_child (s : TrailingStopState) (qty : ℚ) :
    ChildOrderRequest :=
  { parent_algo_id := s.id,
    action := ChildOrderAction.Place
      { symbol := s.parent_signal.symbol, side := s.parent_signal.side,
        order_type := OrderType.Market, quantity := qty, price := none,
        trigger_price := none, time_in_force := none,
        client_order_id := some ("trailing-" ++ s.id), take_profit := none,
        stop_loss := none, display_quantity := none } }

/-- Embeds `TrailingStopAlgorithm::on_fill`: advance the filled quantity and mark
the algorithm completed once nothing remains. -/
def TrailingStopAlgorithm.on_fill (s : TrailingStopState) (fill : Fill) :
    TrailingStopState × List ChildOrderRequest :=
  let s' := { s with filled_quantity := s.filled_quantity + fill.fill_quantity }
  (if TrailingStopAlgorithm.remaining s' ≤ 0 then { s' with status := "Completed" } else s',
   [])

/-- Embeds `TrailingStopAlgorithm::on_tick`. -/
def TrailingStopAlgorithm.on_tick (s : TrailingStopState) (price : ℚ) :
    TrailingStopState × List ChildOrderRequest :=
  if TrailingStopAlgorithm.status s ≠ AlgoStatus.Working then (s, [])
  else if ¬s.activated then (TrailingStopAlgorithm.try_activate s price, [])
  else if s.triggered then (s, [])
  else
    let s' := TrailingStopAlgorithm.update_trail s price
    let threshold := s'.highest_market_price * (1 - s'.callback_rate)
    if price ≤ threshold then
      let s'' := { s' with triggered := true }
      let qty := TrailingStopAlgorithm.remaining s''
      if 0 < qty then (s'', [TrailingStopAlgorithm.build_child s'' qty]) else (s'', [])
    else (s', [])

/-- Folding a list of fills through `on_fill` (each call returns no child
orders, so only the state evolves). -/
def TrailingStopAlgorithm.applyFills (s : TrailingStopState) (fills : List Fill) :
    TrailingStopState :=
  fills.foldl (fun st f => (TrailingStopAlgorithm.on_fill st f).1) s

/-! ## State differ (`tesser-cli/src/reconcile/diff.rs`, `snapshot.rs`) -/

/-- Modelled from the spec: a position (symbol, optional side, quantity,
entry price, unrealized pnl, update time). -/
structure Position where
  symbol : String
  side : Option Side
  quantity : ℚ
  entry_price : Option ℚ
  unrealized_pnl : ℚ
  updated_at : ℤ
deriving DecidableEq, Repr

/-- Modelled from the spec: an account balance row. -/
structure AccountBalance where
  exchange : String
  asset : AssetId
  total : ℚ
  available : ℚ
  updated_at : ℤ
deriving DecidableEq, Repr

/-- Modelled from the spec: a cash bucket of the portfolio's balance map. -/
structure Cash where
  currency : AssetId
  quantity : ℚ
  conversion_rate : ℚ
deriving DecidableEq, Repr

/-- Modelled from the spec: the portfolio state read by the differ — a
positions map keyed by symbol and a balances map keyed by asset, embedded
as duplicate-free association lists. -/
structure PortfolioState where
  positions : List (String × Position)
  balances : List (AssetId × Cash)
deriving DecidableEq, Repr

/-- Lightweight clone of the OMS state used for reconciliation. -/
structure LocalSnapshot where
  portfolio : Option PortfolioState
  open_orders : List Order
deriving DecidableEq, Repr

/-- Remote exchange snapshot captured via REST calls. -/
structure ExchangeSnapshot where
  positions : List Position
  balances : List AccountBalance
  open_orders : List Order
deriving DecidableEq, Repr

/-- Matched order pair between local and remote sources (`OrderPair`; the
Rust fields are named `local` and `remote`, which are Lean keywords). -/
structure OrderPair where
  local_order : Order
  remote_order : Order
deriving DecidableEq, Repr

/-- Order comparison summary. -/
structure OrderDiff where
  matched : List OrderPair
  ghosts : List Order
  zombies : List Order
deriving DecidableEq, Repr

/-- Detail for a single position mismatch. -/
structure PositionDiscrepancy where
  symbol : String
  local_position : Option Position
  remote_position : Option Position
  local_signed : ℚ
  remote_signed : ℚ
  delta : ℚ
deriving DecidableEq, Repr

/-- Detail for a single currency mismatch. -/
structure BalanceDiscrepancy where
  asset : AssetId
  local_available : Option ℚ
  remote_available : Option ℚ
  delta : ℚ
deriving DecidableEq, Repr

/-- Unified report describing every divergence detected between local and
remote state. -/
structure ReconciliationReport where
  local_snapshot : LocalSnapshot
  remote_snapshot : ExchangeSnapshot
  matched : List OrderPair
  ghosts : List Order
  zombies : List Order
  position_discrepancies : List PositionDiscrepancy
  balance_discrepancies : List BalanceDiscrepancy
deriving DecidableEq, Repr

/-- One insertion into the remote order index (`HashMap::insert`: replaces
the entry with the same id, otherwise adds a new one). -/
def indexInsert (idx : List Order) (o : Order) : List Order :=
  if idx.any fun r => r.id == o.id then
    idx.map fun r => if r.id == o.id then o else r
  else idx ++ [o]

/-- The remote order index of `diff_orders` (`remote_index`). -/
def remoteIndexOf (remote : List Order) : List Order :=
  remote.foldl indexInsert []

/-- The matching loop of `StateDiffer::diff_orders`: each local order either
matches (and removes) its remote index entry or is a ghost; the leftover
index entries are the zombies.  `HashMap::remove` is embedded as a filter on
the id, which agrees with it because the index never holds two entries with
the same id. -/
def diffOrdersAux : List Order → List Order → List OrderPair × List Order × List Order
  | [], idx => ([], [], idx)
  | lo :: rest, idx =>
    match idx.find? (fun r => r.id == lo.id) with
    | some ro =>
      let result := diffOrdersAux rest (idx.filter fun r => !(r.id == lo.id))
      ({ local_order := lo, remote_order := ro } :: result.1, result.2.1, result.2.2)
    | none =>
      let result := diffOrdersAux rest idx
      (result.1, lo :: result.2.1, result.2.2)

/-- Embeds `StateDiffer::diff_orders`. -/
def StateDiffer.diff_orders (local_orders remote_orders : List Order) : OrderDiff :=
  let result := diffOrdersAux local_orders (remoteIndexOf remote_orders)
  { matched := result.1, ghosts := result.2.1, zombies := result.2.2 }

def signed_quantity (position : Position) : ℚ :=
  match position.side with
  | some Side.Buy => position.quantity
  | some Side.Sell => -position.quantity
  | none => 0

/-- Embeds `StateDiffer::diff_positions`: over the union of locally and remotely
known symbols, report the symbols whose signed quantities differ.  The Rust
`HashSet` iterates in unspecified order; the embedding fixes a duplicate-free
enumeration of the same set. -/
def StateDiffer.diff_positions (l : LocalSnapshot) (remote : ExchangeSnapshot) :
    List PositionDiscrepancy :=
  let localKeys := (l.portfolio.map fun pf => pf.positions.map (·.1)).getD []
  let symbols := (localKeys ++ remote.positions.map (·.symbol)).dedup
  let remoteLookup := fun sym => (remote.positions.reverse).find? fun p => p.symbol == sym
  symbols.filterMap fun symbol =>
    let local_position := l.portfolio.bind fun pf =>
      (pf.positions.find? fun entry => entry.1 == symbol).map (·.2)
    let remote_position := remoteLookup symbol
    let local_signed := (local_position.map signed_quantity).getD 0
    let remote_signed := (remote_position.map signed_quantity).getD 0
    if local_signed = remote_signed then none
    else some { symbol := symbol, local_position := local_position,
                remote_position := remote_position, local_signed := local_signed,
                remote_signed := remote_signed, delta := local_signed - remote_signed }

/-- Embeds `StateDiffer::diff_balances`: over the union of locally and remotely
known assets, compare the local cash quantity to the remote available
balance and keep the non-zero deltas. -/
def StateDiffer.diff_balances (l : LocalSnapshot) (remote : ExchangeSnapshot) :
    List BalanceDiscrepancy :=
  let localKeys := (l.portfolio.map fun pf => pf.balances.map (·.1)).getD []
  let assets := (localKeys ++ remote.balances.map (·.asset)).dedup
  let remoteLookup := fun asset => (remote.balances.reverse).find? fun b => b.asset == asset
  assets.filterMap fun asset =>
    let local_cash := l.portfolio.bind fun pf =>
      (pf.balances.find? fun entry => entry.1 == asset).map (·.2)
    let remote_cash := remoteLookup asset
    let local_value := (local_cash.map (·.quantity)).getD 0
    let remote_value := (remote_cash.map (·.available)).getD 0
    if local_value = remote_value then none
    else
      let delta := local_value - remote_value
      if delta = 0 then none
      else some { asset := asset, local_available := local_cash.map (·.quantity),
                  remote_available := remote_cash.map (·.available), delta := delta }

/-- Embeds `StateDiffer::diff`: compute a reconciliation report for the provided
snapshots. -/
def StateDiffer.diff (l : LocalSnapshot) (remote : ExchangeSnapshot) :
    ReconciliationReport :=
  let order_diff := StateDiffer.diff_orders l.open_orders remote.open_orders
  { local_snapshot := l, remote_snapshot := remote,
    matched := order_diff.matched, ghosts := order_diff.ghosts,
    zombies := order_diff.zombies,
    position_discrepancies := StateDiffer.diff_positions l remote,
    balance_discrepancies := StateDiffer.diff_balances l remote }

/-! ## Runtime reconciliation handler (`tesser-cli/src/reconcile/handlers.rs`) -/

/-- An observable side effect of `RuntimeHandler::resolve_zombie_orders`:
either a batch of order updates applied to the OMS or a venue-side
`cancel_order` call. -/
inductive OmsAction where
  | applyOrderUpdates (updates : List Order)
  | cancelOrder (order_id : String) (symbol : String)
deriving DecidableEq, Repr

def OmsAction.isCancelCall : OmsAction → Bool
  | .cancelOrder _ _ => true
  | _ => false

/-- Whether an action applies an order update carrying status `Canceled`. -/
def OmsAction.hasCanceledUpdate : OmsAction → Bool
  | .applyOrderUpdates updates => updates.any fun u => u.status == OrderStatus.Canceled
  | _ => false

/-- Embeds `RuntimeHandler::resolve_zombie_orders` as the ordered trace of its OMS
applications and venue cancel calls.  `cancelOk` abstracts the venue's
response to `cancel_order` (keyed by order id), `now` the `Utc::now()`
timestamp stamped on the synthetic updates.  The handler returns early on an
empty zombie list; otherwise it adopts all zombies, issues one cancel per
zombie, and finally applies a `Canceled` update batch for the successful
cancels (omitted when empty). -/
def resolve_zombie_orders (zombies : List Order) (cancelOk : String → Bool) (now : ℤ) :
    List OmsAction :=
  if zombies.isEmpty then []
  else
    let canceled := (zombies.filter fun o => cancelOk o.id).map fun o =>
      { o with status := OrderStatus.Canceled, updated_at := now }
    OmsAction.applyOrderUpdates zombies ::
      (zombies.map fun o => OmsAction.cancelOrder o.id o.request.symbol) ++
        (if canceled.isEmpty then [] else [OmsAction.applyOrderUpdates canceled])

/-! ## Rate limiter (`tesser-broker/src/limiter.rs`) -/

inductive RateLimiterError where
  | KeyRequired
  | UnexpectedKey
  | InsufficientCapacity
deriving DecidableEq, Repr

/-- The two limiter variants.  Modelled from the spec: the wrapped `governor`
buckets are outside the provided sources; each is abstracted by its
configured maximum burst capacity, and a call that the spec says waits until
tokens are available is embedded as returning `Ok`. -/
inductive RateLimiterKind where
  | Direct (capacity : ℕ)
  | Keyed (capacity : ℕ)
deriving DecidableEq, Repr

/-- Embeds `RateLimiter::until_ready`. -/
def RateLimiter.until_ready (limiter : RateLimiterKind) : Except RateLimiterError Unit :=
  match limiter with
  | .Direct _ => Except.ok ()
  | .Keyed _ => Except.error RateLimiterError.KeyRequired

/-- Embeds `RateLimiter::until_key_ready`. -/
def RateLimiter.until_key_ready (limiter : RateLimiterKind) (_key : String) :
    Except RateLimiterError Unit :=
  match limiter with
  | .Direct _ => Except.error RateLimiterError.UnexpectedKey
  | .Keyed _ => Except.ok ()

/-- Embeds `RateLimiter::until_units_ready`.  Modelled from the spec: the inner
`until_n_ready` fails with `InsufficientCapacity` exactly when the requested
burst exceeds the configured maximum and otherwise waits and succeeds. -/
def RateLimiter.until_units_ready (limiter : RateLimiterKind) (units : ℕ) :
    Except RateLimiterError Unit :=
  match limiter with
  | .Direct capacity =>
    if capacity < units then Except.error RateLimiterError.InsufficientCapacity
    else Except.ok ()
  | .Keyed _ => Except.error RateLimiterError.KeyRequired

/-- Embeds `RateLimiter::until_key_units_ready`.  Modelled from the spec, as for
`until_units_ready`. -/
def RateLimiter.until_key_units_ready (limiter : RateLimiterKind) (_key : String)
    (units : ℕ) : Except RateLimiterError Unit :=
  match limiter with
  | .Direct _ => Except.error RateLimiterError.UnexpectedKey
  | .Keyed capacity =>
    if capacity < units then Except.error RateLimiterError.InsufficientCapacity
    else Except.ok ()

/-! ## Theorems -/

/-- C9: the rate limiter's error results are exactly as classified: keyed
limiters reject key-less calls with `KeyRequired`, direct limiters reject
keyed calls with `UnexpectedKey`, the unit-taking calls return
`InsufficientCapacity` exactly when the requested burst exceeds the
configured maximum capacity, and in all other cases the calls return `Ok`. -/
theorem rate_limiter_error_classification (capacity units : ℕ) (key : String)
    (_hunits : 0 < units) :
    RateLimiter.until_ready (RateLimiterKind.Keyed capacity)
        = Except.error RateLimiterError.KeyRequired ∧
    RateLimiter.until_units_ready (RateLimiterKind.Keyed capacity) units
        = Except.error RateLimiterError.KeyRequired ∧
    RateLimiter.until_key_ready (RateLimiterKind.Direct capacity) key
        = Except.error RateLimiterError.UnexpectedKey ∧
    RateLimiter.until_key_units_ready (RateLimiterKind.Direct capacity) key units
        = Except.error RateLimiterError.UnexpectedKey ∧
    (capacity < units →
      RateLimiter.until_units_ready (RateLimiterKind.Direct capacity) units
        = Except.error RateLimiterError.InsufficientCapacity) ∧
    (capacity < units →
      RateLimiter.until_key_units_ready (RateLimiterKind.Keyed capacity) key units
        = Except.error RateLimiterError.InsufficientCapacity) ∧
    RateLimiter.until_ready (RateLimiterKind.Direct capacity) = Except.ok () ∧
    RateLimiter.until_key_ready (RateLimiterKind.Keyed capacity) key = Except.ok () ∧
    (units ≤ capacity →
      RateLimiter.until_units_ready (RateLimiterKind.Direct capacity) units = Except.ok ()) ∧
    (units ≤ capacity →
      RateLimiter.until_key_units_ready (RateLimiterKind.Keyed capacity) key units
        = Except.ok ()) := by
  refine ⟨rfl, rfl, rfl, rfl, ?_, ?_, rfl, rfl, ?_, ?_⟩ <;>
    intro h <;>
    simp [RateLimiter.until_units_ready, RateLimiter.until_key_units_ready, h,
      Nat.not_lt.mpr]

/-- Witness for `rate_limiter_error_classification` at capacity 1, 2 units. -/
theorem rate_limiter_error_classification_witness :
    0 < 2 ∧
    (RateLimiter.until_units_ready (RateLimiterKind.Direct 1) 2
      = Except.error RateLimiterError.InsufficientCapacity) :=
  ⟨by decide,
   ((rate_limiter_error_classification 1 2 "acct" (by decide)).2.2.2.2.1 (by decide))⟩

/-- C2 (counterexample): a sequencer created from the last sequence value
`2^64 - 1` wraps: its first `next()` call returns `0`, not `s + 1`. -/
theorem sequencer_wrap_counterexample :
    LedgerSequencer.nextValues (2 ^ 64 - 1) 1 = [0] ∧ (2 ^ 64 - 1) + 1 ≠ 0 := by
  constructor
  · show [((2 ^ 64 - 1) + 1) % 2 ^ 64] = [0]
    norm_num
  · norm_num

/-- C2 (amended): as long as the `u64` counter does not wrap
(`s + n < 2^64`), the values returned by `n` successive `next()` calls on a
sequencer created from `s` are exactly `s+1, s+2, …, s+n`: the first call
returns `s + 1` and each call returns one more than the previous, strictly
increasing with no gaps. -/
theorem sequencer_monotonic_gap_free (s n : ℕ) (h : s + n < 2 ^ 64) :
    LedgerSequencer.nextValues s n = (List.range n).map fun k => s + k + 1 := by
  induction n generalizing s with
  | zero => rfl
  | succ m ih =>
    have hs1 : s + 1 < 2 ^ 64 := by omega
    have hmod : (s + 1) % 2 ^ 64 = s + 1 := Nat.mod_eq_of_lt hs1
    have hrec : LedgerSequencer.nextValues s (m + 1)
        = (s + 1) % 2 ^ 64 :: LedgerSequencer.nextValues ((s + 1) % 2 ^ 64) m := rfl
    rw [hrec, hmod, ih (s + 1) (by omega), List.range_succ_eq_map]
    simp only [List.map_cons, List.map_map]
    refine congrArg₂ _ (by omega) (List.map_congr_left ?_)
    intro k _
    simp [Function.comp]
    omega

/-- Witness for `sequencer_monotonic_gap_free`: three calls from 41. -/
theorem sequencer_monotonic_gap_free_witness :
    41 + 3 < 2 ^ 64 ∧ LedgerSequencer.nextValues 41 3 = [42, 43, 44] := by
  refine ⟨by norm_num, ?_⟩
  rw [sequencer_monotonic_gap_free 41 3 (by norm_num)]
  rfl

lemma on_fill_total (s : TrailingStopState) (f : Fill) :
    (TrailingStopAlgorithm.on_fill s f).1.total_quantity = s.total_quantity := by
  unfold TrailingStopAlgorithm.on_fill
  dsimp only
  split <;> rfl

lemma on_fill_filled (s : TrailingStopState) (f : Fill) :
    (TrailingStopAlgorithm.on_fill s f).1.filled_quantity
      = s.filled_quantity + f.fill_quantity := by
  unfold TrailingStopAlgorithm.on_fill
  dsimp only
  split <;> rfl

lemma applyFills_total (s : TrailingStopState) (fills : List Fill) :
    (TrailingStopAlgorithm.applyFills s fills).total_quantity = s.total_quantity := by
  induction fills generalizing s with
  | nil => rfl
  | cons f rest ih =>
    show (TrailingStopAlgorithm.applyFills (TrailingStopAlgorithm.on_fill s f).1
      rest).total_quantity = s.total_quantity
    rw [ih, on_fill_total]

lemma applyFills_filled (s : TrailingStopState) (fills : List Fill) :
    (TrailingStopAlgorithm.applyFills s fills).filled_quantity
      = s.filled_quantity + (fills.map Fill.fill_quantity).sum := by
  induction fills generalizing s with
  | nil => simp [TrailingStopAlgorithm.applyFills]
  | cons f rest ih =>
    show (TrailingStopAlgorithm.applyFills (TrailingStopAlgorithm.on_fill s f).1
      rest).filled_quantity = _
    rw [ih, on_fill_filled]
    simp
    ring

lemma applyFills_completed (s : TrailingStopState) (fills : List Fill) (hne : fills ≠ [])
    (h : (TrailingStopAlgorithm.applyFills s fills).filled_quantity = s.total_quantity) :
    (TrailingStopAlgorithm.applyFills s fills).status = "Completed" := by
  induction fills generalizing s with
  | nil => exact absurd rfl hne
  | cons f rest ih =>
    by_cases hr : rest = []
    · subst hr
      have hfq : s.filled_quantity + f.fill_quantity = s.total_quantity := by
        have := h
        rw [show TrailingStopAlgorithm.applyFills s [f]
              = (TrailingStopAlgorithm.on_fill s f).1 from rfl, on_fill_filled] at this
        exact this
      show (TrailingStopAlgorithm.on_fill s f).1.status = "Completed"
      unfold TrailingStopAlgorithm.on_fill
      dsimp only
      rw [if_pos]
      simp only [TrailingStopAlgorithm.remaining]
      rw [hfq]
      simp
    · have h' : (TrailingStopAlgorithm.applyFills (TrailingStopAlgorithm.on_fill s f).1
          rest).filled_quantity = (TrailingStopAlgorithm.on_fill s f).1.total_quantity := by
        rw [on_fill_total]
        exact h
      exact ih _ hr h'

/-- Fields of the state produced by a successful `TrailingStopAlgorithm::new`. -/
lemma new_fields {id : String} {signal : Signal} {total activation callback : ℚ}
    {s0 : TrailingStopState}
    (h : TrailingStopAlgorithm.new id signal total activation callback = some s0) :
    s0.filled_quantity = 0 ∧ 0 < s0.total_quantity := by
  unfold TrailingStopAlgorithm.new at h
  split_ifs at h with h1 h2 h3 h4
  cases h
  exact ⟨rfl, lt_of_not_le h1⟩

/-- C8 (counterexample): the claim as stated fails — `on_fill` does not clamp
the filled quantity, so a single over-sized fill pushes `filled_qty` above
`total_qty` on a freshly constructed trailing stop of total 3. -/
def c8state : TrailingStopState :=
  { id := "algo", parent_signal := { symbol := "BTCUSDT", side := Side.Sell },
    status := "Working", total_quantity := 3, filled_quantity := 0,
    activation_price := 100, callback_rate := 1 / 20, highest_market_price := 100,
    activated := false, triggered := false }

def c8fill : Fill :=
  { order_id := "child", symbol := "BTCUSDT", side := Side.Sell, fill_price := 100,
    fill_quantity := 5, fee := none, fee_asset := none, timestamp := 0 }

theorem trailing_stop_overfill_counterexample :
    TrailingStopAlgorithm.new "algo" { symbol := "BTCUSDT", side := Side.Sell } 3 100 (1 / 20)
        = some c8state ∧
    (TrailingStopAlgorithm.on_fill c8state c8fill).1.filled_quantity = 5 ∧
    ¬((TrailingStopAlgorithm.on_fill c8state c8fill).1.filled_quantity
        ≤ (TrailingStopAlgorithm.on_fill c8state c8fill).1.total_quantity) := by
  refine ⟨?_, ?_, ?_⟩
  · unfold TrailingStopAlgorithm.new
    norm_num [c8state]
  · rw [on_fill_filled]
    norm_num [c8state, c8fill]
  · rw [on_fill_filled, on_fill_total]
    norm_num [c8state, c8fill]

/-- C8 (amended): for every trailing stop built by `new` and every sequence
of `on_fill` events whose non-negative quantities sum to at most the total
quantity — the fill invariant `Σ fills.quantity ≤ order.request.quantity` of
the data model, which the single emitted child order of at most the
remaining quantity guarantees — `filled_qty` never exceeds `total_qty`, and
when it reaches `total_qty` the status transitions to `Completed`. -/
theorem trailing_stop_fill_invariant (id : String) (signal : Signal)
    (total activation callback : ℚ) (s0 : TrailingStopState)
    (h0 : TrailingStopAlgorithm.new id signal total activation callback = some s0)
    (fills : List Fill) (hpos : ∀ f ∈ fills, 0 ≤ f.fill_quantity)
    (hsum : (fills.map Fill.fill_quantity).sum ≤ s0.total_quantity) :
    (∀ n, (TrailingStopAlgorithm.applyFills s0 (fills.take n)).filled_quantity
        ≤ s0.total_quantity) ∧
    ((TrailingStopAlgorithm.applyFills s0 fills).filled_quantity = s0.total_quantity →
      (TrailingStopAlgorithm.applyFills s0 fills).status = "Completed") := by
  obtain ⟨hf0, htot⟩ := new_fields h0
  constructor
  · intro n
    rw [applyFills_filled, hf0, zero_add]
    have hsplit : ((fills.take n).map Fill.fill_quantity).sum
        + ((fills.drop n).map Fill.fill_quantity).sum
        = (fills.map Fill.fill_quantity).sum := by
      rw [← List.sum_append, ← List.map_append, List.take_append_drop]
    have hdrop : 0 ≤ ((fills.drop n).map Fill.fill_quantity).sum := by
      apply List.sum_nonneg
      intro a ha
      obtain ⟨f, hf, rfl⟩ := List.mem_map.1 ha
      exact hpos f (List.mem_of_mem_drop hf)
    linarith
  · intro h
    by_cases hne : fills = []
    · subst hne
      rw [show TrailingStopAlgorithm.applyFills s0 [] = s0 from rfl, hf0] at h
      exact absurd h.symm (ne_of_gt htot)
    · exact applyFills_completed s0 fills hne h

def c8fills : List Fill :=
  [{ order_id := "child", symbol := "BTCUSDT", side := Side.Sell, fill_price := 100,
     fill_quantity := 1, fee := none, fee_asset := none, timestamp := 0 },
   { order_id := "child", symbol := "BTCUSDT", side := Side.Sell, fill_price := 100,
     fill_quantity := 2, fee := none, fee_asset := none, timestamp := 1 }]

/-- Witness for `trailing_stop_fill_invariant`: fills of 1 and 2 against a
total of 3. -/
theorem trailing_stop_fill_invariant_witness :
    TrailingStopAlgorithm.new "algo" { symbol := "BTCUSDT", side := Side.Sell } 3 100 (1 / 20)
        = some c8state ∧
    (∀ f ∈ c8fills, 0 ≤ f.fill_quantity) ∧
    (c8fills.map Fill.fill_quantity).sum ≤ c8state.total_quantity ∧
    ((∀ n, (TrailingStopAlgorithm.applyFills c8state (c8fills.take n)).filled_quantity
        ≤ c8state.total_quantity) ∧
     ((TrailingStopAlgorithm.applyFills c8state c8fills).filled_quantity
          = c8state.total_quantity →
       (TrailingStopAlgorithm.applyFills c8state c8fills).status = "Completed")) :=
  ⟨by unfold TrailingStopAlgorithm.new; norm_num [c8state],
   by intro f hf; fin_cases hf <;> norm_num [c8fills],
   by norm_num [c8fills, c8state],
   trailing_stop_fill_invariant "algo" { symbol := "BTCUSDT", side := Side.Sell }
     3 100 (1 / 20) c8state (by unfold TrailingStopAlgorithm.new; norm_num [c8state])
     c8fills (by intro f hf; fin_cases hf <;> norm_num [c8fills])
     (by norm_num [c8fills, c8state])⟩

/-- C7: for a Working, activated, not-yet-triggered trailing stop (whose
signal side is Sell, as `new` enforces, and with quantity outstanding, as
every Working state reached from `new` has), `on_tick` first raises
`highest_market_price` to `max(highest, price)` — so it is non-decreasing —
and if the tick price is at most `highest × (1 − callback_rate)` it sets
`triggered` and emits exactly one `Place` of a Market sell for the remaining
quantity `total − filled` with client order id `trailing-<id>`; otherwise it
emits nothing and leaves `triggered` unset. -/
theorem trailing_stop_tick_behavior (s : TrailingStopState) (price : ℚ)
    (hW : s.status = "Working") (hA : s.activated = true) (hT : s.triggered = false)
    (hside : s.parent_signal.side = Side.Sell)
    (hfill : s.filled_quantity < s.total_quantity) :
    ((TrailingStopAlgorithm.on_tick s price).1.highest_market_price
        = max s.highest_market_price price) ∧
    (s.highest_market_price
        ≤ (TrailingStopAlgorithm.on_tick s price).1.highest_market_price) ∧
    (price ≤ max s.highest_market_price price * (1 - s.callback_rate) →
      (TrailingStopAlgorithm.on_tick s price).1.triggered = true ∧
      (TrailingStopAlgorithm.on_tick s price).2 =
        [{ parent_algo_id := s.id,
           action := ChildOrderAction.Place
             { symbol := s.parent_signal.symbol, side := Side.Sell,
               order_type := OrderType.Market,
               quantity := s.total_quantity - s.filled_quantity, price := none,
               trigger_price := none, time_in_force := none,
               client_order_id := some ("trailing-" ++ s.id), take_profit := none,
               stop_loss := none, display_quantity := none } }]) ∧
    (¬(price ≤ max s.highest_market_price price * (1 - s.callback_rate)) →
      (TrailingStopAlgorithm.on_tick s price).1.triggered = false ∧
      (TrailingStopAlgorithm.on_tick s price).2 = []) := by
  have hstat : TrailingStopAlgorithm.status s = AlgoStatus.Working := by
    simp [TrailingStopAlgorithm.status, hW]
  have hqty : max (s.total_quantity - s.filled_quantity) 0
      = s.total_quantity - s.filled_quantity := max_eq_left (by linarith)
  have hqpos : 0 < s.total_quantity - s.filled_quantity := by linarith
  have htrail : TrailingStopAlgorithm.update_trail s price =
      { s with highest_market_price := max s.highest_market_price price } := by
    unfold TrailingStopAlgorithm.update_trail
    rcases lt_or_le s.highest_market_price price with hlt | hle
    · rw [if_pos hlt, max_eq_right (le_of_lt hlt)]
    · rw [if_neg (not_lt.mpr hle), max_eq_left hle]
  by_cases hth : price ≤ max s.highest_market_price price * (1 - s.callback_rate)
  · have hrun : TrailingStopAlgorithm.on_tick s price =
        ({ s with highest_market_price := max s.highest_market_price price,
                  triggered := true },
         [TrailingStopAlgorithm.build_child
           { s with highest_market_price := max s.highest_market_price price,
                    triggered := true }
           (s.total_quantity - s.filled_quantity)]) := by
      unfold TrailingStopAlgorithm.on_tick
      rw [htrail]
      simp only [hstat, hA, hT, TrailingStopAlgorithm.remaining, hqty]
      rw [if_neg (by simp), if_neg (by simp), if_pos hth, if_pos hqpos]
      simp
    rw [hrun]
    refine ⟨rfl, le_max_left _ _, fun _ => ⟨rfl, ?_⟩, fun hc => absurd hth hc⟩
    simp [TrailingStopAlgorithm.build_child, hside]
  · have hrun : TrailingStopAlgorithm.on_tick s price =
        ({ s with highest_market_price := max s.highest_market_price price }, []) := by
      unfold TrailingStopAlgorithm.on_tick
      rw [htrail]
      simp only [hstat, hA, hT]
      rw [if_neg (by simp), if_neg (by simp), if_neg hth]
      simp
    rw [hrun]
    exact ⟨rfl, le_max_left _ _, fun hc => absurd hc hth, fun _ => ⟨hT, rfl⟩⟩

def c7state : TrailingStopState :=
  { id := "algo", parent_signal := { symbol := "BTCUSDT", side := Side.Sell },
    status := "Working", total_quantity := 3, filled_quantity := 0,
    activation_price := 100, callback_rate := 1 / 20, highest_market_price := 112,
    activated := true, triggered := false }

/-- Witness for `trailing_stop_tick_behavior`: highest 112, callback 5%,
tick at 105 (below `112 × 0.95 = 106.4`) fires a market sell of 3. -/
theorem trailing_stop_tick_behavior_witness :
    ((TrailingStopAlgorithm.on_tick c7state 105).1.highest_market_price
        = max c7state.highest_market_price 105) ∧
    ((TrailingStopAlgorithm.on_tick c7state 105).1.triggered = true ∧
      (TrailingStopAlgorithm.on_tick c7state 105).2 =
        [{ parent_algo_id := c7state.id,
           action := ChildOrderAction.Place
             { symbol := c7state.parent_signal.symbol, side := Side.Sell,
               order_type := OrderType.Market,
               quantity := c7state.total_quantity - c7state.filled_quantity,
               price := none, trigger_price := none, time_in_force := none,
               client_order_id := some ("trailing-" ++ c7state.id),
               take_profit := none, stop_loss := none,
               display_quantity := none } }]) := by
  have h := trailing_stop_tick_behavior c7state 105 (by norm_num [c7state])
    (by norm_num [c7state]) (by norm_num [c7state]) (by norm_num [c7state])
    (by norm_num [c7state])
  exact ⟨h.1, h.2.2.1 (by norm_num [c7state])⟩

lemma build_entry_timestamp (asset : AssetId) (amount : ℚ) (fill : Fill)
    (entry_type : LedgerType) (component : Option String) :
    (build_entry asset amount fill entry_type component).timestamp = fill.timestamp := rfl

lemma build_entry_reference (asset : AssetId) (amount : ℚ) (fill : Fill)
    (entry_type : LedgerType) (component : Option String) :
    (build_entry asset amount fill entry_type component).reference_id = fill.order_id := rfl

/-- When the fill price and quantity are positive (the data-model invariant
on fills), both spot deltas are non-zero and `spot_entries` is exactly the
base and quote adjustment pair. -/
lemma spot_entries_eq (fill : Fill) (instrument : Instrument)
    (hp : 0 < fill.fill_price) (hq : 0 < fill.fill_quantity) :
    spot_entries fill instrument =
      [build_entry instrument.base
         (match fill.side with
          | Side.Buy => fill.fill_quantity
          | Side.Sell => -fill.fill_quantity) fill LedgerType.Adjustment (some "base"),
       build_entry instrument.quote
         (match fill.side with
          | Side.Buy => -(fill.fill_price * fill.fill_quantity)
          | Side.Sell => fill.fill_price * fill.fill_quantity) fill LedgerType.Adjustment
         (some "quote")] := by
  have hn : 0 < fill.fill_price * fill.fill_quantity := mul_pos hp hq
  unfold spot_entries
  cases fill.side <;> dsimp only
  · rw [if_pos (ne_of_gt hq), if_pos (neg_ne_zero.mpr (ne_of_gt hn))]
    rfl
  · rw [if_pos (neg_ne_zero.mpr (ne_of_gt hq)), if_pos (ne_of_gt hn)]
    rfl

lemma mem_spot_entries {fill : Fill} {instrument : Instrument} {e : LedgerEntry}
    (h : e ∈ spot_entries fill instrument) :
    e.timestamp = fill.timestamp ∧ e.reference_id = fill.order_id := by
  unfold spot_entries at h
  rcases List.mem_append.1 h with h | h <;> (split at h <;> simp_all [build_entry])

lemma mem_derivative_entries {fill : Fill} {instrument : Instrument} {e : LedgerEntry}
    (h : e ∈ derivative_entries fill instrument) :
    e.timestamp = fill.timestamp ∧ e.reference_id = fill.order_id := by
  unfold derivative_entries at h
  dsimp only at h
  split at h <;> simp_all [build_entry]

/-- Every entry derived from a fill inherits the fill's timestamp and order
id as reference. -/
lemma entries_from_fill_inherit (fill : Fill) (instrument : Instrument)
    (realized_pnl : ℚ) :
    ∀ e ∈ entries_from_fill fill instrument realized_pnl,
      e.timestamp = fill.timestamp ∧ e.reference_id = fill.order_id := by
  intro e he
  unfold entries_from_fill at he
  rcases List.mem_append.1 he with h | h
  · rcases List.mem_append.1 h with h | h
    · cases hk : instrument.kind <;> rw [hk] at h
      · exact mem_spot_entries h
      · exact mem_derivative_entries h
      · exact mem_derivative_entries h
    · split at h <;> simp_all [build_entry]
  · rcases hf : fill.fee with _ | f <;> rw [hf] at h
    · simp at h
    · split at h <;> simp_all [build_entry]

/-- C3: every spot fill (with the data model's positive price and quantity)
yields a base adjustment of `+qty` (Buy) / `−qty` (Sell), a quote adjustment
of `−notional` (Buy) / `+notional` (Sell), both with component meta
`"base"`/`"quote"`, plus a negated fee entry when a non-zero fee is present;
and every derived entry inherits the fill's timestamp and order id. -/
theorem spot_fill_ledger_entries (fill : Fill) (instrument : Instrument)
    (realized_pnl : ℚ) (hkind : instrument.kind = InstrumentKind.Spot)
    (hp : 0 < fill.fill_price) (hq : 0 < fill.fill_quantity) :
    (∃ e ∈ entries_from_fill fill instrument realized_pnl,
      e.asset = instrument.base ∧
      e.amount = (match fill.side with
                  | Side.Buy => fill.fill_quantity
                  | Side.Sell => -fill.fill_quantity) ∧
      e.entry_type = LedgerType.Adjustment ∧
      e.meta = some { symbol := fill.symbol, component := "base" }) ∧
    (∃ e ∈ entries_from_fill fill instrument realized_pnl,
      e.asset = instrument.quote ∧
      e.amount = (match fill.side with
                  | Side.Buy => -(fill.fill_price * fill.fill_quantity)
                  | Side.Sell => fill.fill_price * fill.fill_quantity) ∧
      e.entry_type = LedgerType.Adjustment ∧
      e.meta = some { symbol := fill.symbol, component := "quote" }) ∧
    (∀ f, fill.fee = some f → f ≠ 0 →
      ∃ e ∈ entries_from_fill fill instrument realized_pnl,
        e.asset = resolvedFeeAsset fill instrument ∧ e.amount = -f ∧
        e.entry_type = LedgerType.Fee ∧
        e.meta = some { symbol := fill.symbol, component := "fee" }) ∧
    (∀ e ∈ entries_from_fill fill instrument realized_pnl,
      e.timestamp = fill.timestamp ∧ e.reference_id = fill.order_id) := by
  have hsplit : entries_from_fill fill instrument realized_pnl
      = spot_entries fill instrument
        ++ (if realized_pnl ≠ 0 then
              [build_entry instrument.settlement_currency realized_pnl fill
                LedgerType.TradeRealizedPnl (some "realized_pnl")]
            else [])
        ++ (match fill.fee with
            | some fee =>
              if fee ≠ 0 then
                [build_entry (resolvedFeeAsset fill instrument) (-fee) fill LedgerType.Fee
                  (some "fee")]
              else []
            | none => []) := by
    unfold entries_from_fill
    rw [hkind]
  have hspot := spot_entries_eq fill instrument hp hq
  refine ⟨?_, ?_, ?_, entries_from_fill_inherit fill instrument realized_pnl⟩
  · refine ⟨build_entry instrument.base
      (match fill.side with
       | Side.Buy => fill.fill_quantity
       | Side.Sell => -fill.fill_quantity) fill LedgerType.Adjustment (some "base"),
      ?_, by simp [build_entry]⟩
    rw [hsplit, hspot]
    simp
  · refine ⟨build_entry instrument.quote
      (match fill.side with
       | Side.Buy => -(fill.fill_price * fill.fill_quantity)
       | Side.Sell => fill.fill_price * fill.fill_quantity) fill LedgerType.Adjustment
      (some "quote"), ?_, by simp [build_entry]⟩
    rw [hsplit, hspot]
    simp
  · intro f hf hfne
    refine ⟨build_entry (resolvedFeeAsset fill instrument) (-f) fill LedgerType.Fee
      (some "fee"), ?_, by simp [build_entry]⟩
    rw [hsplit, hf]
    simp [hfne]

def c3fill : Fill :=
  { order_id := "ord-1", symbol := "BTCUSDT", side := Side.Buy, fill_price := 20000,
    fill_quantity := 1 / 2, fee := some (1 / 100), fee_asset := none, timestamp := 7 }

def c3instrument : Instrument :=
  { symbol := "BTCUSDT", base := { exchange := "paper", code := "BTC" },
    quote := { exchange := "paper", code := "USDT" },
    settlement_currency := { exchange := "paper", code := "USDT" },
    kind := InstrumentKind.Spot }

/-- Witness for `spot_fill_ledger_entries`: BUY BTCUSDT @ 20000, qty 0.5,
fee 0.01 USDT. -/
theorem spot_fill_ledger_entries_witness :
    c3instrument.kind = InstrumentKind.Spot ∧ (0 < c3fill.fill_price) ∧
    (0 < c3fill.fill_quantity) ∧
    ((∃ e ∈ entries_from_fill c3fill c3instrument 0,
      e.asset = c3instrument.base ∧
      e.amount = (match c3fill.side with
                  | Side.Buy => c3fill.fill_quantity
                  | Side.Sell => -c3fill.fill_quantity) ∧
      e.entry_type = LedgerType.Adjustment ∧
      e.meta = some { symbol := c3fill.symbol, component := "base" }) ∧
    (∃ e ∈ entries_from_fill c3fill c3instrument 0,
      e.asset = c3instrument.quote ∧
      e.amount = (match c3fill.side with
                  | Side.Buy => -(c3fill.fill_price * c3fill.fill_quantity)
                  | Side.Sell => c3fill.fill_price * c3fill.fill_quantity) ∧
      e.entry_type = LedgerType.Adjustment ∧
      e.meta = some { symbol := c3fill.symbol, component := "quote" }) ∧
    (∀ f, c3fill.fee = some f → f ≠ 0 →
      ∃ e ∈ entries_from_fill c3fill c3instrument 0,
        e.asset = resolvedFeeAsset c3fill c3instrument ∧ e.amount = -f ∧
        e.entry_type = LedgerType.Fee ∧
        e.meta = some { symbol := c3fill.symbol, component := "fee" }) ∧
    (∀ e ∈ entries_from_fill c3fill c3instrument 0,
      e.timestamp = c3fill.timestamp ∧ e.reference_id = c3fill.order_id)) :=
  ⟨rfl, by norm_num [c3fill], by norm_num [c3fill],
   spot_fill_ledger_entries c3fill c3instrument 0 rfl (by norm_num [c3fill])
     (by norm_num [c3fill])⟩

/-- Sum of the amounts of the entries booked against a given asset. -/
def assetAmountSum (entries : List LedgerEntry) (asset : AssetId) : ℚ :=
  ((entries.filter fun e => e.asset == asset).map LedgerEntry.amount).sum

lemma assetAmountSum_append (a b : List LedgerEntry) (asset : AssetId) :
    assetAmountSum (a ++ b) asset = assetAmountSum a asset + assetAmountSum b asset := by
  simp [assetAmountSum, List.filter_append]

/-- C4 (counterexample): on a linear-perpetual BUY fill of notional 10 with
no fee and realized pnl 5, the settlement-currency ledger amounts sum to
`-5`, not the claimed `−notional × sideSign − fee = −10`. -/
def c4fill : Fill :=
  { order_id := "o1", symbol := "BTCUSD", side := Side.Buy, fill_price := 10,
    fill_quantity := 1, fee := none, fee_asset := none, timestamp := 0 }

def c4instrument : Instrument :=
  { symbol := "BTCUSD", base := { exchange := "x", code := "BTC" },
    quote := { exchange := "x", code := "USD" },
    settlement_currency := { exchange := "x", code := "USD" },
    kind := InstrumentKind.LinearPerpetual }

theorem settlement_sum_counterexample :
    assetAmountSum (entries_from_fill c4fill c4instrument 5)
        c4instrument.settlement_currency = -5 ∧
    -(c4fill.fill_price * c4fill.fill_quantity * (c4fill.side.as_i8 : ℚ))
        - (c4fill.fee.getD 0) = -10 ∧
    (-5 : ℚ) ≠ -10 := by
  refine ⟨?_, ?_, by norm_num⟩
  · norm_num [assetAmountSum, entries_from_fill, derivative_entries, build_entry,
      c4fill, c4instrument, Side.as_i8]
  · norm_num [c4fill, Side.as_i8]

/-- C4 (amended): for every fill whose fee asset (explicit or defaulted)
is the settlement currency — and, for spot instruments, whose settlement
currency is the quote asset and differs from the base asset — the ledger
amounts derived from the fill against the settlement currency sum to
`−notional × sideSign + realized_pnl − fee`: the claim's formula holds once
the realized-pnl entry, which is also booked against the settlement
currency, is included. -/
theorem settlement_sum_identity (fill : Fill) (instrument : Instrument)
    (realized_pnl : ℚ)
    (hfee : resolvedFeeAsset fill instrument = instrument.settlement_currency)
    (hspot : instrument.kind = InstrumentKind.Spot →
      instrument.settlement_currency = instrument.quote ∧
        instrument.base ≠ instrument.quote) :
    assetAmountSum (entries_from_fill fill instrument realized_pnl)
        instrument.settlement_currency
      = -(fill.fill_price * fill.fill_quantity * (fill.side.as_i8 : ℚ)) + realized_pnl
        - (fill.fee.getD 0) := by
  unfold entries_from_fill
  rw [assetAmountSum_append, assetAmountSum_append]
  have hpnl : assetAmountSum
      (if realized_pnl ≠ 0 then
        [build_entry instrument.settlement_currency realized_pnl fill
          LedgerType.TradeRealizedPnl (some "realized_pnl")]
      else []) instrument.settlement_currency = realized_pnl := by
    split_ifs with h
    · simp [assetAmountSum, build_entry]
    · push_neg at h
      simp [assetAmountSum, h]
  have hfeeSum : assetAmountSum
      (match fill.fee with
       | some fee =>
         if fee ≠ 0 then
           [build_entry (resolvedFeeAsset fill instrument) (-fee) fill LedgerType.Fee
             (some "fee")]
         else []
       | none => []) instrument.settlement_currency = -(fill.fee.getD 0) := by
    rcases hf : fill.fee with _ | f
    · simp [assetAmountSum]
    · dsimp only
      split_ifs with h
      · simp [assetAmountSum, build_entry, hfee]
      · push_neg at h
        simp [assetAmountSum, h]
  have hkindSum : assetAmountSum
      (match instrument.kind with
       | InstrumentKind.Spot => spot_entries fill instrument
       | InstrumentKind.LinearPerpetual => derivative_entries fill instrument
       | InstrumentKind.InversePerpetual => derivative_entries fill instrument)
      instrument.settlement_currency
      = -(fill.fill_price * fill.fill_quantity * (fill.side.as_i8 : ℚ)) := by
    have hderiv : assetAmountSum (derivative_entries fill instrument)
        instrument.settlement_currency
        = -(fill.fill_price * fill.fill_quantity * (fill.side.as_i8 : ℚ)) := by
      unfold derivative_entries
      dsimp only
      split_ifs with h1
      · simp [assetAmountSum, build_entry]
      · push_neg at h1
        rw [show assetAmountSum [] instrument.settlement_currency = 0 from rfl]
        exact h1.symm
    cases hk : instrument.kind
    · obtain ⟨hsq, hbq⟩ := hspot hk
      have hbs : (instrument.base == instrument.settlement_currency) = false := by
        rw [beq_eq_false_iff_ne, hsq]
        exact hbq
      have hqs : (instrument.quote == instrument.settlement_currency) = true := by
        rw [beq_iff_eq, hsq]
      unfold spot_entries
      dsimp only
      cases hside : fill.side <;> dsimp only <;> rw [assetAmountSum_append]
      · have hbase : assetAmountSum
            (if fill.fill_quantity ≠ 0 then
              [build_entry instrument.base fill.fill_quantity fill LedgerType.Adjustment
                (some "base")]
            else []) instrument.settlement_currency = 0 := by
          split_ifs with h <;> simp [assetAmountSum, build_entry, hbs]
        have hquote : assetAmountSum
            (if -(fill.fill_price * fill.fill_quantity) ≠ 0 then
              [build_entry instrument.quote (-(fill.fill_price * fill.fill_quantity)) fill
                LedgerType.Adjustment (some "quote")]
            else []) instrument.settlement_currency
            = -(fill.fill_price * fill.fill_quantity) := by
          split_ifs with h
          · simp [assetAmountSum, build_entry, hqs]
          · push_neg at h
            simp [assetAmountSum, h]
        rw [hbase, hquote]
        simp [Side.as_i8]
      · have hbase : assetAmountSum
            (if -fill.fill_quantity ≠ 0 then
              [build_entry instrument.base (-fill.fill_quantity) fill LedgerType.Adjustment
                (some "base")]
            else []) instrument.settlement_currency = 0 := by
          split_ifs with h <;> simp [assetAmountSum, build_entry, hbs]
        have hquote : assetAmountSum
            (if fill.fill_price * fill.fill_quantity ≠ 0 then
              [build_entry instrument.quote (fill.fill_price * fill.fill_quantity) fill
                LedgerType.Adjustment (some "quote")]
            else []) instrument.settlement_currency
            = fill.fill_price * fill.fill_quantity := by
          split_ifs with h
          · simp [assetAmountSum, build_entry, hqs]
          · push_neg at h
            simp [assetAmountSum, h]
        rw [hbase, hquote]
        simp [Side.as_i8]
    · exact hderiv
    · exact hderiv
  rw [hpnl, hfeeSum, hkindSum]
  ring

/-- Witness for `settlement_sum_identity`: the linear-perpetual BUY fill of
notional 10 with realized pnl 5 sums to `-10 + 5 - 0`. -/
theorem settlement_sum_identity_witness :
    resolvedFeeAsset c4fill c4instrument = c4instrument.settlement_currency ∧
    (c4instrument.kind = InstrumentKind.Spot →
      c4instrument.settlement_currency = c4instrument.quote ∧
        c4instrument.base ≠ c4instrument.quote) ∧
    assetAmountSum (entries_from_fill c4fill c4instrument 5)
        c4instrument.settlement_currency
      = -(c4fill.fill_price * c4fill.fill_quantity * (c4fill.side.as_i8 : ℚ)) + 5
        - (c4fill.fee.getD 0) :=
  ⟨rfl, fun h => by simp [c4instrument] at h,
   settlement_sum_identity c4fill c4instrument 5 rfl
     (fun h => by simp [c4instrument] at h)⟩

/-! ### C6: zombie-order resolution ordering -/

lemma nodup_id_inj {l : List Order} (h : (l.map Order.id).Nodup) {a b : Order}
    (ha : a ∈ l) (hb : b ∈ l) (hid : a.id = b.id) : a = b :=
  List.inj_on_of_nodup_map h ha hb hid

/-- C6: the runtime handler adopts every zombie into the OMS as its first
action — before any venue `cancel_order` call — then issues one cancel per
zombie, and a `Canceled` update is applied for a zombie exactly when its
cancel succeeded; every applied `Canceled` update comes after every cancel
call (the trace splits into a cancel-free suffix holding the `Canceled`
updates). -/
theorem zombie_resolution_order (zombies : List Order) (cancelOk : String → Bool)
    (now : ℤ) (hne : zombies ≠ []) (hnodup : (zombies.map Order.id).Nodup)
    (hopen : ∀ z ∈ zombies, z.status ≠ OrderStatus.Canceled) :
    (resolve_zombie_orders zombies cancelOk now).head?
        = some (OmsAction.applyOrderUpdates zombies) ∧
    (∀ z ∈ zombies,
      OmsAction.cancelOrder z.id z.request.symbol ∈ resolve_zombie_orders zombies cancelOk now) ∧
    (∀ z ∈ zombies,
      ((∃ updates, OmsAction.applyOrderUpdates updates ∈ resolve_zombie_orders zombies cancelOk now ∧
          ∃ u ∈ updates, u.id = z.id ∧ u.status = OrderStatus.Canceled)
        ↔ cancelOk z.id = true)) ∧
    (∃ pre post, resolve_zombie_orders zombies cancelOk now = pre ++ post ∧
      (∀ a ∈ pre, a.hasCanceledUpdate = false) ∧
      (∀ a ∈ post, a.isCancelCall = false)) := by
  have hempty : zombies.isEmpty = false := by
    cases zombies
    · exact absurd rfl hne
    · rfl
  have htrace : resolve_zombie_orders zombies cancelOk now
      = OmsAction.applyOrderUpdates zombies ::
          (zombies.map fun o => OmsAction.cancelOrder o.id o.request.symbol) ++
            (if ((zombies.filter fun o => cancelOk o.id).map fun o =>
                  { o with status := OrderStatus.Canceled, updated_at := now }).isEmpty
             then []
             else [OmsAction.applyOrderUpdates
               ((zombies.filter fun o => cancelOk o.id).map fun o =>
                 { o with status := OrderStatus.Canceled, updated_at := now })]) := by
    unfold resolve_zombie_orders
    rw [if_neg (by simp [hempty])]
  refine ⟨?_, ?_, ?_, ?_⟩
  · rw [htrace]
    rfl
  · intro z hz
    rw [htrace]
    refine List.mem_cons_of_mem _ (List.mem_append_left _ ?_)
    exact List.mem_map.2 ⟨z, hz, rfl⟩
  · intro z hz
    constructor
    · rintro ⟨updates, hmem, u, hu, huid, hust⟩
      rw [htrace] at hmem
      rcases List.mem_cons.1 hmem with hm | hm
      · cases hm
        exact absurd hust (hopen u hu)
      · rcases List.mem_append.1 hm with hm | hm
        · obtain ⟨o, _, ho⟩ := List.mem_map.1 hm
          exact absurd ho (by simp)
        · split at hm
          · simp at hm
          · have hb := List.mem_singleton.1 hm
            injection hb with hb
            subst hb
            obtain ⟨o, ho, rfl⟩ := List.mem_map.1 hu
            obtain ⟨hoz, hok⟩ := List.mem_filter.1 ho
            have : o = z := nodup_id_inj hnodup hoz hz huid
            subst this
            exact hok
    · intro hok
      refine ⟨(zombies.filter fun o => cancelOk o.id).map fun o =>
        { o with status := OrderStatus.Canceled, updated_at := now }, ?_, ?_⟩
      · rw [htrace]
        refine List.mem_cons_of_mem _ (List.mem_append_right _ ?_)
        have hzin : ({ z with status := OrderStatus.Canceled, updated_at := now } : Order)
            ∈ (zombies.filter fun o => cancelOk o.id).map fun o =>
              { o with status := OrderStatus.Canceled, updated_at := now } :=
          List.mem_map.2 ⟨z, List.mem_filter.2 ⟨hz, by simp [hok]⟩, rfl⟩
        rw [if_neg]
        · exact List.mem_singleton.2 rfl
        · intro hcon
          rw [List.isEmpty_iff] at hcon
          rw [hcon] at hzin
          simp at hzin
      · refine ⟨{ z with status := OrderStatus.Canceled, updated_at := now }, ?_, rfl, rfl⟩
        exact List.mem_map.2 ⟨z, List.mem_filter.2 ⟨hz, by simp [hok]⟩, rfl⟩
  · refine ⟨OmsAction.applyOrderUpdates zombies ::
      (zombies.map fun o => OmsAction.cancelOrder o.id o.request.symbol),
      (if ((zombies.filter fun o => cancelOk o.id).map fun o =>
            { o with status := OrderStatus.Canceled, updated_at := now }).isEmpty
       then []
       else [OmsAction.applyOrderUpdates
         ((zombies.filter fun o => cancelOk o.id).map fun o =>
           { o with status := OrderStatus.Canceled, updated_at := now })]), ?_, ?_, ?_⟩
    · rw [htrace]
    · intro a ha
      rcases List.mem_cons.1 ha with rfl | ha
      · simp only [OmsAction.hasCanceledUpdate, List.any_eq_false]
        intro u hu
        simpa using hopen u hu
      · obtain ⟨o, _, rfl⟩ := List.mem_map.1 ha
        rfl
    · intro a ha
      split at ha
      · simp at ha
      · rcases List.mem_singleton.1 ha with rfl
        rfl

def c6zombie : Order :=
  { id := "remote-1",
    request := { symbol := "BTCUSDT", side := Side.Buy, order_type := OrderType.Limit,
                 quantity := 1, price := none, trigger_price := none,
                 time_in_force := none, client_order_id := none, take_profit := none,
                 stop_loss := none, display_quantity := none },
    status := OrderStatus.Accepted, filled_quantity := 0, avg_fill_price := none,
    created_at := 0, updated_at := 0 }

/-- Witness for `zombie_resolution_order`: a single zombie `remote-1` whose
cancel succeeds is adopted first and then cancelled. -/
theorem zombie_resolution_order_witness :
    (resolve_zombie_orders [c6zombie] (fun _ => true) 0).head?
        = some (OmsAction.applyOrderUpdates [c6zombie]) ∧
    OmsAction.cancelOrder c6zombie.id c6zombie.request.symbol
        ∈ resolve_zombie_orders [c6zombie] (fun _ => true) 0 :=
  have th := zombie_resolution_order [c6zombie] (fun _ => true) 0 (by simp)
    (by simp) (by intro z hz; rw [List.mem_singleton.1 hz]; simp [c6zombie])
  ⟨th.1, th.2.1 c6zombie (List.mem_singleton.2 rfl)⟩

/-! ### C1 / C10: OCO evaluation -/

lemma mem_triggeredOf {orders : List PendingConditional}
    {ev : PendingConditional → Option (ℚ × ℤ)} {e : TriggeredOrder} :
    e ∈ triggeredOf orders ev ↔
      ∃ p ∈ orders, ∃ pr, ev p = some pr ∧
        e = { order := p.order, fill_price := pr.1, timestamp := pr.2, kind := p.kind,
              group := p.group } := by
  simp only [triggeredOf, List.mem_filterMap, Option.map_eq_some']
  constructor
  · rintro ⟨p, hp, pr, hev, rfl⟩
    exact ⟨p, hp, pr, hev, rfl⟩
  · rintro ⟨p, hp, pr, hev, rfl⟩
    exact ⟨p, hp, pr, hev, rfl⟩

lemma pickBestAux_mem (b : TriggeredOrder) (l : List TriggeredOrder) :
    pickBestAux b l ∈ b :: l := by
  induction l generalizing b with
  | nil => exact List.mem_singleton.2 rfl
  | cons x rest ih =>
    have h := ih (if x.kind.priority < b.kind.priority then x else b)
    rcases List.mem_cons.1 h with h | h
    · rw [show pickBestAux b (x :: rest)
        = pickBestAux (if x.kind.priority < b.kind.priority then x else b) rest from rfl, h]
      split
      · exact List.mem_cons_of_mem _ (List.mem_cons_self _ _)
      · exact List.mem_cons_self _ _
    · exact List.mem_cons_of_mem _ (List.mem_cons_of_mem _ h)

lemma pickBestAux_min (b : TriggeredOrder) (l : List TriggeredOrder) :
    (pickBestAux b l).kind.priority ≤ b.kind.priority ∧
      ∀ x ∈ l, (pickBestAux b l).kind.priority ≤ x.kind.priority := by
  induction l generalizing b with
  | nil => exact ⟨le_refl _, fun x hx => absurd hx (List.not_mem_nil x)⟩
  | cons x rest ih =>
    have h := ih (if x.kind.priority < b.kind.priority then x else b)
    have hb : (if x.kind.priority < b.kind.priority then x else b).kind.priority
        ≤ b.kind.priority := by
      split
      · omega
      · exact le_refl _
    have hx : (if x.kind.priority < b.kind.priority then x else b).kind.priority
        ≤ x.kind.priority := by
      split
      · exact le_refl _
      · omega
    refine ⟨le_trans h.1 hb, fun y hy => ?_⟩
    rcases List.mem_cons.1 hy with rfl | hy
    · exact le_trans h.1 hx
    · exact h.2 y hy

lemma pickBest_mem {l : List TriggeredOrder} {e : TriggeredOrder}
    (h : pickBest l = some e) : e ∈ l := by
  cases l with
  | nil => simp [pickBest] at h
  | cons b rest =>
    rw [show pickBest (b :: rest) = some (pickBestAux b rest) from rfl] at h
    rw [← Option.some.inj h]
    exact pickBestAux_mem b rest

lemma pickBest_min {l : List TriggeredOrder} {e : TriggeredOrder}
    (h : pickBest l = some e) : ∀ x ∈ l, e.kind.priority ≤ x.kind.priority := by
  cases l with
  | nil => simp [pickBest] at h
  | cons b rest =>
    rw [show pickBest (b :: rest) = some (pickBestAux b rest) from rfl] at h
    rw [← Option.some.inj h]
    intro x hx
    rcases List.mem_cons.1 hx with rfl | hx
    · exact (pickBestAux_min x rest).1
    · exact (pickBestAux_min b rest).2 x hx

lemma pickBest_of_ne_nil {l : List TriggeredOrder} (h : l ≠ []) :
    ∃ e, pickBest l = some e := by
  cases l with
  | nil => exact absurd rfl h
  | cons b rest => exact ⟨pickBestAux b rest, rfl⟩

lemma mem_groupEvents {events : List TriggeredOrder} {g : String} {e : TriggeredOrder} :
    e ∈ groupEvents events g ↔ e ∈ events ∧ e.group = some g := by
  simp [groupEvents]

lemma mem_groupKeysOf {events : List TriggeredOrder} {g : String} :
    g ∈ groupKeysOf events ↔ ∃ e ∈ events, e.group = some g := by
  simp [groupKeysOf, List.mem_dedup, List.mem_filterMap]

lemma nodup_groupKeysOf (events : List TriggeredOrder) : (groupKeysOf events).Nodup :=
  List.nodup_dedup _

lemma mem_resolvedOf_subset {events : List TriggeredOrder} {e : TriggeredOrder}
    (h : e ∈ resolvedOf events) : e ∈ events := by
  rcases List.mem_append.1 h with h | h
  · exact (List.mem_filter.1 h).1
  · obtain ⟨g, _, hpick⟩ := List.mem_filterMap.1 h
    exact (mem_groupEvents.1 (pickBest_mem hpick)).1

lemma resolved_group_spec {events : List TriggeredOrder} {e : TriggeredOrder}
    (h : e ∈ resolvedOf events) :
    e.group = none ∨ ∃ g, e.group = some g ∧ g ∈ groupKeysOf events ∧
      pickBest (groupEvents events g) = some e := by
  rcases List.mem_append.1 h with h | h
  · left
    have := (List.mem_filter.1 h).2
    exact Option.isNone_iff_eq_none.1 this
  · right
    obtain ⟨g, hg, hpick⟩ := List.mem_filterMap.1 h
    exact ⟨g, (mem_groupEvents.1 (pickBest_mem hpick)).2, hg, hpick⟩

lemma keys_iff_resolved {events : List TriggeredOrder} {g : String} :
    g ∈ groupKeysOf events ↔ ∃ e ∈ resolvedOf events, e.group = some g := by
  constructor
  · intro hg
    obtain ⟨e, he, hge⟩ := mem_groupKeysOf.1 hg
    have hne : groupEvents events g ≠ [] := by
      intro hnil
      have : e ∈ groupEvents events g := mem_groupEvents.2 ⟨he, hge⟩
      rw [hnil] at this
      exact List.not_mem_nil e this
    obtain ⟨b, hb⟩ := pickBest_of_ne_nil hne
    refine ⟨b, List.mem_append_right _ (List.mem_filterMap.2 ⟨g, hg, hb⟩),
      (mem_groupEvents.1 (pickBest_mem hb)).2⟩
  · rintro ⟨e, he, hge⟩
    rcases resolved_group_spec he with h0 | ⟨g', hg', hk, _⟩
    · rw [h0] at hge
      cases hge
    · rw [hg'] at hge
      cases Option.some.inj hge
      exact hk

lemma filterMap_picks_not_mem {events : List TriggeredOrder} {g : String}
    (keys : List String) (hg : g ∉ keys) :
    (keys.filterMap fun k => pickBest (groupEvents events k)).filter
      (fun e => e.group == some g) = [] := by
  induction keys with
  | nil => rfl
  | cons k rest ih =>
    have hgr : g ∉ rest := fun h => hg (List.mem_cons_of_mem _ h)
    have hgk : g ≠ k := fun h => hg (h ▸ List.mem_cons_self _ _)
    cases hpick : pickBest (groupEvents events k) with
    | none =>
      simp only [List.filterMap_cons, hpick]
      exact ih hgr
    | some b =>
      have hbg : b.group = some k := (mem_groupEvents.1 (pickBest_mem hpick)).2
      simp only [List.filterMap_cons, hpick]
      rw [List.filter_cons, if_neg (by simp [hbg, Ne.symm hgk])]
      exact ih hgr

lemma picks_filter_len (events : List TriggeredOrder) (g : String) :
    ∀ keys : List String, keys.Nodup →
      ((keys.filterMap fun k => pickBest (groupEvents events k)).filter
        (fun e => e.group == some g)).length ≤ 1 := by
  intro keys
  induction keys with
  | nil =>
    intro _
    simp
  | cons k rest ih =>
    intro hnd
    have hknotin : k ∉ rest := (List.nodup_cons.1 hnd).1
    cases hpick : pickBest (groupEvents events k) with
    | none =>
      simp only [List.filterMap_cons, hpick]
      exact ih (List.Nodup.of_cons hnd)
    | some b =>
      have hbg : b.group = some k := (mem_groupEvents.1 (pickBest_mem hpick)).2
      simp only [List.filterMap_cons, hpick]
      rw [List.filter_cons]
      by_cases hkg : k = g
      · subst hkg
        rw [if_pos (by simp [hbg]), filterMap_picks_not_mem rest hknotin]
        simp
      · rw [if_neg (by simp [hbg, hkg])]
        exact ih (List.Nodup.of_cons hnd)

lemma resolved_count (events : List TriggeredOrder) (g : String) :
    ((resolvedOf events).filter (fun e => e.group == some g)).length ≤ 1 := by
  unfold resolvedOf
  rw [List.filter_append, List.length_append]
  have h1 : ((events.filter fun e => e.group.isNone).filter
      (fun e => e.group == some g)) = [] := by
    rw [List.filter_eq_nil_iff]
    intro e he
    have := (List.mem_filter.1 he).2
    rw [Option.isNone_iff_eq_none.1 this]
    simp
  rw [h1]
  simpa using picks_filter_len events g (groupKeysOf events) (nodup_groupKeysOf events)

lemma evaluate_fst (orders : List PendingConditional)
    (ev : PendingConditional → Option (ℚ × ℤ)) :
    (ConditionalOrderManager.evaluate orders ev).1 = resolvedOf (triggeredOf orders ev) := rfl

lemma evaluate_snd (orders : List PendingConditional)
    (ev : PendingConditional → Option (ℚ × ℤ)) :
    (ConditionalOrderManager.evaluate orders ev).2 =
      (survivorsOf orders ev).filter fun p =>
        match p.group with
        | some g => !((groupKeysOf (triggeredOf orders ev)).contains g)
        | none => true := rfl

/-- The OCO soundness of a single `evaluate` pass, for an arbitrary
evaluator: at most one event per group is emitted, the emitted event has
minimal priority among the group's triggered members, and once a group
member triggers the group emits exactly one event and no pending member of
the group survives. -/
lemma evaluate_oco_general (orders : List PendingConditional)
    (ev : PendingConditional → Option (ℚ × ℤ)) (g : String) :
    (((ConditionalOrderManager.evaluate orders ev).1.filter
        (fun e => e.group == some g)).length ≤ 1) ∧
    (∀ e ∈ (ConditionalOrderManager.evaluate orders ev).1, e.group = some g →
      ∀ p ∈ orders, p.group = some g → (ev p).isSome = true →
        e.kind.priority ≤ p.kind.priority) ∧
    ((∃ p ∈ orders, p.group = some g ∧ (ev p).isSome = true) →
      (∃ e ∈ (ConditionalOrderManager.evaluate orders ev).1, e.group = some g) ∧
      ∀ q ∈ (ConditionalOrderManager.evaluate orders ev).2, q.group ≠ some g) := by
  rw [evaluate_fst, evaluate_snd]
  refine ⟨resolved_count _ g, ?_, ?_⟩
  · intro e he hge p hp hpg hpev
    obtain ⟨pr, hpr⟩ := Option.isSome_iff_exists.1 hpev
    rcases resolved_group_spec he with h0 | ⟨g', hg', _, hpick⟩
    · rw [h0] at hge
      cases hge
    · rw [hg'] at hge
      cases Option.some.inj hge
      have hx : TriggeredOrder.mk p.order pr.1 pr.2 p.kind p.group
          ∈ triggeredOf orders ev :=
        mem_triggeredOf.2 ⟨p, hp, pr, hpr, rfl⟩
      exact pickBest_min hpick _ (mem_groupEvents.2 ⟨hx, hpg⟩)
  · rintro ⟨p, hp, hpg, hpev⟩
    obtain ⟨pr, hpr⟩ := Option.isSome_iff_exists.1 hpev
    have hx : TriggeredOrder.mk p.order pr.1 pr.2 p.kind p.group
        ∈ triggeredOf orders ev :=
      mem_triggeredOf.2 ⟨p, hp, pr, hpr, rfl⟩
    have hkey : g ∈ groupKeysOf (triggeredOf orders ev) :=
      mem_groupKeysOf.2 ⟨_, hx, hpg⟩
    refine ⟨keys_iff_resolved.1 hkey, ?_⟩
    intro q hq hqg
    have hpred := (List.mem_filter.1 hq).2
    rw [hqg] at hpred
    simp only [Bool.not_eq_true'] at hpred
    have : g ∈ groupKeysOf (triggeredOf orders ev) := hkey
    rw [← List.elem_iff] at this
    simp only [List.contains] at hpred
    rw [this] at hpred
    cases hpred

/-- C1: in every single evaluation pass (`trigger_with_candle` or
`trigger_with_price`), each OCO group emits at most one triggered order;
an emitted grouped order has the lowest `TriggerKind` priority
(StopLoss 0 < TakeProfit 1 < Standalone 2) among the group's triggered
members; and once any member of a group triggers, exactly one of its events
is emitted and every other pending member of the group — including
non-triggered survivors — is removed from the pending set. -/
theorem oco_evaluation_sound (orders : List PendingConditional) (g : String) :
    (∀ candle : Candle,
      (((ConditionalOrderManager.trigger_with_candle orders candle).1.filter
          (fun e => e.group == some g)).length ≤ 1) ∧
      (∀ e ∈ (ConditionalOrderManager.trigger_with_candle orders candle).1,
        e.group = some g → ∀ p ∈ orders, p.group = some g →
          (candleEvaluator candle p).isSome = true →
            e.kind.priority ≤ p.kind.priority) ∧
      ((∃ p ∈ orders, p.group = some g ∧ (candleEvaluator candle p).isSome = true) →
        (∃ e ∈ (ConditionalOrderManager.trigger_with_candle orders candle).1,
          e.group = some g) ∧
        ∀ q ∈ (ConditionalOrderManager.trigger_with_candle orders candle).2,
          q.group ≠ some g)) ∧
    (∀ (last_price : ℚ) (ts : ℤ),
      (((ConditionalOrderManager.trigger_with_price orders last_price ts).1.filter
          (fun e => e.group == some g)).length ≤ 1) ∧
      (∀ e ∈ (ConditionalOrderManager.trigger_with_price orders last_price ts).1,
        e.group = some g → ∀ p ∈ orders, p.group = some g →
          (priceEvaluator last_price ts p).isSome = true →
            e.kind.priority ≤ p.kind.priority) ∧
      ((∃ p ∈ orders, p.group = some g ∧
          (priceEvaluator last_price ts p).isSome = true) →
        (∃ e ∈ (ConditionalOrderManager.trigger_with_price orders last_price ts).1,
          e.group = some g) ∧
        ∀ q ∈ (ConditionalOrderManager.trigger_with_price orders last_price ts).2,
          q.group ≠ some g)) :=
  ⟨fun candle => evaluate_oco_general orders (candleEvaluator candle) g,
   fun last_price ts => evaluate_oco_general orders (priceEvaluator last_price ts) g⟩

def mkCondOrder (oid cid : String) (side : Side) (trigger : Option ℚ) : Order :=
  { id := oid,
    request := { symbol := "BTCUSDT", side := side, order_type := OrderType.StopMarket,
                 quantity := 1, price := none, trigger_price := trigger,
                 time_in_force := some TimeInForce.GoodTilCanceled,
                 client_order_id := some cid, take_profit := none, stop_loss := none,
                 display_quantity := none },
    status := OrderStatus.PendingNew, filled_quantity := 0, avg_fill_price := none,
    created_at := 0, updated_at := 0 }

def c1orders : List PendingConditional :=
  [{ order := mkCondOrder "o1" "base-sl" Side.Sell (some 90), kind := TriggerKind.StopLoss,
     group := some "base" },
   { order := mkCondOrder "o2" "base-tp" Side.Sell (some 110), kind := TriggerKind.TakeProfit,
     group := some "base" }]

def c1candle : Candle :=
  { symbol := "BTCUSDT", interval := "1m", open_ := 100, high := 120, low := 80,
    close := 95, timestamp := 5, volume := 1 }

/-- Witness for `oco_evaluation_sound`: the stop-loss / take-profit pair on
group `base`, both touched by a candle spanning 80–120; one event is
emitted and the pending set retains no member of the group. -/
theorem oco_evaluation_sound_witness :
    (((ConditionalOrderManager.trigger_with_candle c1orders c1candle).1.filter
        (fun e => e.group == some "base")).length ≤ 1) ∧
    (∃ e ∈ (ConditionalOrderManager.trigger_with_candle c1orders c1candle).1,
      e.group = some "base") ∧
    (∀ q ∈ (ConditionalOrderManager.trigger_with_candle c1orders c1candle).2,
      q.group ≠ some "base") :=
  have th := (oco_evaluation_sound c1orders "base").1 c1candle
  have hc := th.2.2 (by decide)
  ⟨th.1, hc.1, hc.2⟩

/-- Every emitted event of an `evaluate` pass whose evaluator passes no
order lacking a trigger price carries an order with a trigger price, and a
pending order the evaluator cannot trigger survives exactly when no event
of its group was emitted. -/
lemma evaluate_no_trigger (orders : List PendingConditional)
    (ev : PendingConditional → Option (ℚ × ℤ))
    (Hev : ∀ q : PendingConditional, q.order.request.trigger_price = none → ev q = none)
    (p : PendingConditional) (hp : p ∈ orders)
    (hnone : p.order.request.trigger_price = none) :
    (∀ e ∈ (ConditionalOrderManager.evaluate orders ev).1,
      e.order.request.trigger_price ≠ none) ∧
    (p ∈ (ConditionalOrderManager.evaluate orders ev).2 ↔
      ¬∃ g, p.group = some g ∧
        ∃ e ∈ (ConditionalOrderManager.evaluate orders ev).1, e.group = some g) := by
  rw [evaluate_fst, evaluate_snd]
  constructor
  · intro e he hcon
    obtain ⟨q, _, pr, hev, rfl⟩ := mem_triggeredOf.1 (mem_resolvedOf_subset he)
    rw [Hev q hcon] at hev
    cases hev
  · have hsurv : p ∈ survivorsOf orders ev := by
      rw [survivorsOf, List.mem_filter]
      exact ⟨hp, by rw [Hev p hnone]; rfl⟩
    constructor
    · intro hmem
      rintro ⟨g, hg, e, he, hge⟩
      have hpred := (List.mem_filter.1 hmem).2
      rw [hg] at hpred
      simp only [Bool.not_eq_true'] at hpred
      have hkey : g ∈ groupKeysOf (triggeredOf orders ev) :=
        keys_iff_resolved.2 ⟨e, he, hge⟩
      rw [← List.elem_iff] at hkey
      simp only [List.contains] at hpred
      rw [hkey] at hpred
      cases hpred
    · intro hno
      rw [List.mem_filter]
      refine ⟨hsurv, ?_⟩
      cases hg : p.group with
      | none => rfl
      | some g =>
        simp only [Bool.not_eq_true']
        cases hcon : (groupKeysOf (triggeredOf orders ev)).contains g
        · rfl
        · exfalso
          have : g ∈ groupKeysOf (triggeredOf orders ev) := by
            rw [← List.elem_iff]
            exact hcon
          obtain ⟨e, he, hge⟩ := keys_iff_resolved.1 this
          exact hno ⟨g, hg, e, he, hge⟩

/-- C10: a pending conditional order without a trigger price is never
emitted by `trigger_with_candle` or `trigger_with_price` (every emitted
order has a trigger price), and it survives the pass exactly when no OCO
event of its group was resolved by another order. -/
theorem no_trigger_price_never_triggers (orders : List PendingConditional)
    (p : PendingConditional) (hp : p ∈ orders)
    (hnone : p.order.request.trigger_price = none) :
    (∀ candle : Candle,
      (∀ e ∈ (ConditionalOrderManager.trigger_with_candle orders candle).1,
        e.order.request.trigger_price ≠ none) ∧
      (p ∈ (ConditionalOrderManager.trigger_with_candle orders candle).2 ↔
        ¬∃ g, p.group = some g ∧
          ∃ e ∈ (ConditionalOrderManager.trigger_with_candle orders candle).1,
            e.group = some g)) ∧
    (∀ (last_price : ℚ) (ts : ℤ),
      (∀ e ∈ (ConditionalOrderManager.trigger_with_price orders last_price ts).1,
        e.order.request.trigger_price ≠ none) ∧
      (p ∈ (ConditionalOrderManager.trigger_with_price orders last_price ts).2 ↔
        ¬∃ g, p.group = some g ∧
          ∃ e ∈ (ConditionalOrderManager.trigger_with_price orders last_price ts).1,
            e.group = some g)) :=
  ⟨fun candle => evaluate_no_trigger orders (candleEvaluator candle)
      (fun q hq => by rw [candleEvaluator, hq]) p hp hnone,
   fun last_price ts => evaluate_no_trigger orders (priceEvaluator last_price ts)
      (fun q hq => by rw [priceEvaluator, hq]) p hp hnone⟩

def c10orders : List PendingConditional :=
  [{ order := mkCondOrder "o1" "grp-sl" Side.Sell none, kind := TriggerKind.StopLoss,
     group := some "grp" },
   { order := mkCondOrder "o2" "grp-tp" Side.Sell (some 110), kind := TriggerKind.TakeProfit,
     group := some "grp" },
   { order := mkCondOrder "o3" "lone" Side.Sell none, kind := TriggerKind.Standalone,
     group := none }]

/-- Witness for `no_trigger_price_never_triggers`: a trigger-less stop-loss
member of group `grp` whose take-profit partner triggers; no emitted event
lacks a trigger price, and the trigger-less member is removed because its
group resolved. -/
theorem no_trigger_price_never_triggers_witness :
    ((c10orders.get ⟨0, by decide⟩) ∈ c10orders) ∧
    ((c10orders.get ⟨0, by decide⟩).order.request.trigger_price = none) ∧
    (∀ e ∈ (ConditionalOrderManager.trigger_with_price c10orders 120 9).1,
      e.order.request.trigger_price ≠ none) ∧
    ((c10orders.get ⟨0, by decide⟩)
        ∈ (ConditionalOrderManager.trigger_with_price c10orders 120 9).2 ↔
      ¬∃ g, (c10orders.get ⟨0, by decide⟩).group = some g ∧
        ∃ e ∈ (ConditionalOrderManager.trigger_with_price c10orders 120 9).1,
          e.group = some g) :=
  have th := (no_trigger_price_never_triggers c10orders (c10orders.get ⟨0, by decide⟩)
    (c10orders.get_mem _ _) (by decide)).2 120 9
  ⟨c10orders.get_mem _ _, by decide, th.1, th.2⟩

/-! ### C5: state differ -/

lemma indexInsert_of_not_mem (idx : List Order) (o : Order)
    (h : o.id ∉ idx.map Order.id) : indexInsert idx o = idx ++ [o] := by
  unfold indexInsert
  rw [if_neg]
  simp only [List.any_eq_true, beq_iff_eq, not_exists, not_and]
  intro r hr hro
  exact h (List.mem_map.2 ⟨r, hr, hro⟩)

lemma remoteIndexOf_eq_aux :
    ∀ (remote acc : List Order), ((acc ++ remote).map Order.id).Nodup →
      List.foldl indexInsert acc remote = acc ++ remote := by
  intro remote
  induction remote with
  | nil =>
    intro acc _
    simp
  | cons o rest ih =>
    intro acc hnd
    have hnotin : o.id ∉ acc.map Order.id := by
      intro hin
      rw [List.map_append] at hnd
      obtain ⟨-, -, hdisj⟩ := List.nodup_append.1 hnd
      exact hdisj hin (by simp)
    rw [show List.foldl indexInsert acc (o :: rest)
        = List.foldl indexInsert (indexInsert acc o) rest from rfl,
      indexInsert_of_not_mem acc o hnotin]
    have hassoc : (acc ++ [o]) ++ rest = acc ++ o :: rest := by simp
    rw [← hassoc]
    exact ih (acc ++ [o]) (by rw [hassoc]; exact hnd)

lemma remoteIndexOf_eq (remote : List Order) (h : (remote.map Order.id).Nodup) :
    remoteIndexOf remote = remote :=
  remoteIndexOf_eq_aux remote [] (by simpa using h)

lemma diffOrdersAux_spec :
    ∀ (locals idx : List Order),
      (locals.map Order.id).Nodup → (idx.map Order.id).Nodup →
      (∀ q ∈ (diffOrdersAux locals idx).1, q.local_order.id = q.remote_order.id) ∧
      (∀ x, (∃ q ∈ (diffOrdersAux locals idx).1, q.local_order.id = x) ↔
        (x ∈ locals.map Order.id ∧ x ∈ idx.map Order.id)) ∧
      (∀ x, x ∈ (diffOrdersAux locals idx).2.1.map Order.id ↔
        (x ∈ locals.map Order.id ∧ x ∉ idx.map Order.id)) ∧
      (∀ x, x ∈ (diffOrdersAux locals idx).2.2.map Order.id ↔
        (x ∈ idx.map Order.id ∧ x ∉ locals.map Order.id)) := by
  intro locals
  induction locals with
  | nil =>
    intro idx _ _
    refine ⟨?_, ?_, ?_, ?_⟩ <;> simp [diffOrdersAux]
  | cons lo rest ih =>
    intro idx hl hi
    rw [List.map_cons] at hl
    have hlrest := hl.of_cons
    have hlonotin : lo.id ∉ rest.map Order.id := (List.nodup_cons.1 hl).1
    cases hfind : idx.find? (fun r => r.id == lo.id) with
    | some ro =>
      have hroidx : ro ∈ idx := List.mem_of_find?_eq_some hfind
      have hroid : ro.id = lo.id := by simpa using List.find?_some hfind
      have hidx'mem : ∀ x,
          x ∈ (idx.filter fun r => !(r.id == lo.id)).map Order.id ↔
            (x ∈ idx.map Order.id ∧ x ≠ lo.id) := by
        intro x
        constructor
        · rintro h
          obtain ⟨r, hrmem, rfl⟩ := List.mem_map.1 h
          obtain ⟨hr, hrne⟩ := List.mem_filter.1 hrmem
          refine ⟨List.mem_map.2 ⟨r, hr, rfl⟩, ?_⟩
          simpa using hrne
        · rintro ⟨h, hne⟩
          obtain ⟨r, hr, rfl⟩ := List.mem_map.1 h
          exact List.mem_map.2 ⟨r, List.mem_filter.2 ⟨hr, by simpa using hne⟩, rfl⟩
      have hidx'nodup : ((idx.filter fun r => !(r.id == lo.id)).map Order.id).Nodup :=
        hi.sublist ((idx.filter_sublist).map Order.id)
      obtain ⟨IH1, IH2, IH3, IH4⟩ := ih (idx.filter fun r => !(r.id == lo.id))
        hlrest hidx'nodup
      have hstep : diffOrdersAux (lo :: rest) idx =
          ({ local_order := lo, remote_order := ro } ::
            (diffOrdersAux rest (idx.filter fun r => !(r.id == lo.id))).1,
           (diffOrdersAux rest (idx.filter fun r => !(r.id == lo.id))).2.1,
           (diffOrdersAux rest (idx.filter fun r => !(r.id == lo.id))).2.2) := by
        simp only [diffOrdersAux, hfind]
      rw [hstep]
      have hloidx : lo.id ∈ idx.map Order.id := List.mem_map.2 ⟨ro, hroidx, hroid⟩
      refine ⟨?_, ?_, ?_, ?_⟩
      · intro q hq
        rcases List.mem_cons.1 hq with rfl | hq
        · exact hroid.symm
        · exact IH1 q hq
      · intro x
        simp only [List.map_cons, List.mem_cons]
        constructor
        · rintro ⟨q, hq, rfl⟩
          rcases hq with rfl | hq
          · exact ⟨Or.inl rfl, hloidx⟩
          · obtain ⟨h1, h2⟩ := (IH2 q.local_order.id).1 ⟨q, hq, rfl⟩
            exact ⟨Or.inr h1, ((hidx'mem _).1 h2).1⟩
        · rintro ⟨hx, hxidx⟩
          rcases hx with rfl | hx
          · exact ⟨{ local_order := lo, remote_order := ro }, Or.inl rfl, rfl⟩
          · have hxne : x ≠ lo.id := fun h => hlonotin (h ▸ hx)
            obtain ⟨q, hq, hqid⟩ := (IH2 x).2 ⟨hx, (hidx'mem x).2 ⟨hxidx, hxne⟩⟩
            exact ⟨q, Or.inr hq, hqid⟩
      · intro x
        rw [IH3 x, hidx'mem x]
        simp only [List.map_cons, List.mem_cons]
        constructor
        · rintro ⟨hxrest, hnot⟩
          have hxne : x ≠ lo.id := fun h => hlonotin (h ▸ hxrest)
          exact ⟨Or.inr hxrest, fun hxidx => hnot ⟨hxidx, hxne⟩⟩
        · rintro ⟨hx, hxnidx⟩
          rcases hx with rfl | hxrest
          · exact absurd hloidx hxnidx
          · exact ⟨hxrest, fun h => hxnidx h.1⟩
      · intro x
        rw [IH4 x, hidx'mem x]
        simp only [List.map_cons, List.mem_cons]
        constructor
        · rintro ⟨⟨hxi, hxne⟩, hxnr⟩
          refine ⟨hxi, ?_⟩
          rintro (rfl | hxr)
          · exact hxne rfl
          · exact hxnr hxr
        · rintro ⟨hxi, hnot⟩
          exact ⟨⟨hxi, fun h => hnot (Or.inl h)⟩, fun h => hnot (Or.inr h)⟩
    | none =>
      have hnotin : lo.id ∉ idx.map Order.id := by
        intro hin
        obtain ⟨r, hr, hrid⟩ := List.mem_map.1 hin
        exact (List.find?_eq_none.1 hfind r hr) (by simpa using hrid)
      have hstep : diffOrdersAux (lo :: rest) idx =
          ((diffOrdersAux rest idx).1, lo :: (diffOrdersAux rest idx).2.1,
           (diffOrdersAux rest idx).2.2) := by
        simp only [diffOrdersAux, hfind]
      obtain ⟨IH1, IH2, IH3, IH4⟩ := ih idx hlrest hi
      rw [hstep]
      refine ⟨IH1, ?_, ?_, ?_⟩
      · intro x
        rw [IH2 x]
        simp only [List.map_cons, List.mem_cons]
        constructor
        · rintro ⟨h1, h2⟩
          exact ⟨Or.inr h1, h2⟩
        · rintro ⟨h1, h2⟩
          rcases h1 with rfl | h1
          · exact absurd h2 hnotin
          · exact ⟨h1, h2⟩
      · intro x
        simp only [List.map_cons, List.mem_cons]
        rw [IH3 x]
        constructor
        · rintro (rfl | ⟨h1, h2⟩)
          · exact ⟨Or.inl rfl, hnotin⟩
          · exact ⟨Or.inr h1, h2⟩
        · rintro ⟨h1, h2⟩
          rcases h1 with rfl | h1
          · exact Or.inl rfl
          · exact Or.inr ⟨h1, h2⟩
      · intro x
        rw [IH4 x]
        simp only [List.map_cons, List.mem_cons]
        constructor
        · rintro ⟨h1, h2⟩
          refine ⟨h1, ?_⟩
          rintro (rfl | hxr)
          · exact hnotin h1
          · exact h2 hxr
        · rintro ⟨h1, hnot⟩
          exact ⟨h1, fun h => hnot (Or.inr h)⟩

/-- C5: `StateDiffer.diff` is pure — equal inputs give equal reports — and,
for duplicate-free order ids on both sides, every matched pair joins a local
and a remote order of the same id, and each id of the local/remote order
universe falls in exactly one of the matched, ghost, or zombie buckets. -/
theorem state_differ_partition (l : LocalSnapshot) (remote : ExchangeSnapshot)
    (hl : (l.open_orders.map Order.id).Nodup)
    (hr : (remote.open_orders.map Order.id).Nodup) :
    StateDiffer.diff l remote = StateDiffer.diff l remote ∧
    (∀ q ∈ (StateDiffer.diff l remote).matched, q.local_order.id = q.remote_order.id) ∧
    (∀ x, (x ∈ l.open_orders.map Order.id ∨ x ∈ remote.open_orders.map Order.id) ↔
      (((∃ q ∈ (StateDiffer.diff l remote).matched, q.local_order.id = x) ∧
          x ∉ (StateDiffer.diff l remote).ghosts.map Order.id ∧
          x ∉ (StateDiffer.diff l remote).zombies.map Order.id) ∨
       ((¬∃ q ∈ (StateDiffer.diff l remote).matched, q.local_order.id = x) ∧
          x ∈ (StateDiffer.diff l remote).ghosts.map Order.id ∧
          x ∉ (StateDiffer.diff l remote).zombies.map Order.id) ∨
       ((¬∃ q ∈ (StateDiffer.diff l remote).matched, q.local_order.id = x) ∧
          x ∉ (StateDiffer.diff l remote).ghosts.map Order.id ∧
          x ∈ (StateDiffer.diff l remote).zombies.map Order.id))) := by
  have hidx : remoteIndexOf remote.open_orders = remote.open_orders :=
    remoteIndexOf_eq _ hr
  have hm : (StateDiffer.diff l remote).matched
      = (diffOrdersAux l.open_orders remote.open_orders).1 := by
    rw [show (StateDiffer.diff l remote).matched
        = (diffOrdersAux l.open_orders (remoteIndexOf remote.open_orders)).1 from rfl, hidx]
  have hg : (StateDiffer.diff l remote).ghosts
      = (diffOrdersAux l.open_orders remote.open_orders).2.1 := by
    rw [show (StateDiffer.diff l remote).ghosts
        = (diffOrdersAux l.open_orders (remoteIndexOf remote.open_orders)).2.1 from rfl, hidx]
  have hz : (StateDiffer.diff l remote).zombies
      = (diffOrdersAux l.open_orders remote.open_orders).2.2 := by
    rw [show (StateDiffer.diff l remote).zombies
        = (diffOrdersAux l.open_orders (remoteIndexOf remote.open_orders)).2.2 from rfl, hidx]
  obtain ⟨S1, S2, S3, S4⟩ := diffOrdersAux_spec l.open_orders remote.open_orders hl hr
  refine ⟨rfl, ?_, ?_⟩
  · rw [hm]
    exact S1
  · intro x
    rw [hm, hg, hz, S2 x, S3 x, S4 x]
    tauto

def c5local : LocalSnapshot :=
  { portfolio := none,
    open_orders := [mkCondOrder "A" "a" Side.Buy none, mkCondOrder "B" "b" Side.Buy none] }

def c5remote : ExchangeSnapshot :=
  { positions := [], balances := [],
    open_orders := [mkCondOrder "B" "b" Side.Buy none, mkCondOrder "C" "c" Side.Buy none] }

/-- Witness for `state_differ_partition`: locals `A, B` against remotes
`B, C`. -/
theorem state_differ_partition_witness :
    (c5local.open_orders.map Order.id).Nodup ∧
    (c5remote.open_orders.map Order.id).Nodup ∧
    (∀ q ∈ (StateDiffer.diff c5local c5remote).matched,
      q.local_order.id = q.remote_order.id) ∧
    (("A" ∈ c5local.open_orders.map Order.id ∨
        "A" ∈ c5remote.open_orders.map Order.id) ↔
      (((∃ q ∈ (StateDiffer.diff c5local c5remote).matched, q.local_order.id = "A") ∧
          "A" ∉ (StateDiffer.diff c5local c5remote).ghosts.map Order.id ∧
          "A" ∉ (StateDiffer.diff c5local c5remote).zombies.map Order.id) ∨
       ((¬∃ q ∈ (StateDiffer.diff c5local c5remote).matched, q.local_order.id = "A") ∧
          "A" ∈ (StateDiffer.diff c5local c5remote).ghosts.map Order.id ∧
          "A" ∉ (StateDiffer.diff c5local c5remote).zombies.map Order.id) ∨
       ((¬∃ q ∈ (StateDiffer.diff c5local c5remote).matched, q.local_order.id = "A") ∧
          "A" ∉ (StateDiffer.diff c5local c5remote).ghosts.map Order.id ∧
          "A" ∈ (StateDiffer.diff c5local c5remote).zombies.map Order.id))) :=
  have th := state_differ_partition c5local c5remote (by decide) (by decide)
  ⟨by decide, by decide, th.2.1, th.2.2 "A"⟩
